import Mathlib

/-!
Verification of the translate-php-tool backend against its specification.

The Python modules `backend/engine/base.py`, `backend/engine/cache.py`,
`backend/engine/engine.py`, `backend/translate.py`, `backend/translator.py`
and the provider clients are shallowly embedded below: pure functions become
Lean functions, mutation of objects becomes explicit state passing, wall-clock
timestamps become rational-number parameters, and network / subprocess effects
become oracle functions supplied as arguments.

Python strings are modelled by Lean `String` (or `List Char` where the code
works character by character); `str.strip` and `str.lower` are modelled on the
ASCII range, which covers every character the repository's patterns and
constants use.
-/

set_option maxHeartbeats 4000000
set_option maxRecDepth 4096

namespace TransTool

/-- The ASCII whitespace characters removed by Python `str.strip()` and
matched by the regex class `\s`. -/
def isPySpace (c : Char) : Bool :=
  c = ' ' || c = '\t' || c = '\n' || c = '\r' || c = '\x0b' || c = '\x0c'

/-- Model of Python `str.strip()` (ASCII whitespace). -/
def pyStrip (s : String) : String :=
  ⟨((s.data.dropWhile isPySpace).reverse.dropWhile isPySpace).reverse⟩

/-- Model of Python `str.lower()` (ASCII case folding). -/
def pyLower (s : String) : String :=
  ⟨s.data.map Char.toLower⟩

/-!
## Provider statistics — `backend/engine/base.py`

`ProviderStats` is the dataclass of the same name; timestamps are rationals
standing for `time.time()` values.
-/

/-- `ProviderStats` from `backend/engine/base.py`. -/
structure ProviderStats where
  name : String
  total_requests : Nat := 0
  successful : Nat := 0
  failed : Nat := 0
  rate_limited : Nat := 0
  last_request_at : ℚ := 0
  last_error_at : ℚ := 0
  last_error_msg : String := ""
  cooldown_until : ℚ := 0
  requests_this_window : Nat := 0
  window_start : ℚ := 0
deriving Repr, DecidableEq

/-- A fresh `ProviderStats(name=name)` as built by `TranslationProvider.__init__`;
`window_start` is the construction time. -/
def freshStats (name : String) (constructedAt : ℚ) : ProviderStats :=
  { name := name, window_start := constructedAt }

/-- `TranslationProvider.record_success` (base.py lines 75-80). -/
def recordSuccess (s : ProviderStats) (now : ℚ) : ProviderStats :=
  { s with
    total_requests := s.total_requests + 1
    successful := s.successful + 1
    requests_this_window := s.requests_this_window + 1
    last_request_at := now }

/-- `TranslationProvider.record_failure` (base.py lines 82-94): always counts the
failure; when the failure is classified as rate-limiting it additionally bumps
`rate_limited` and sets `cooldown_until = now + 30 * 2 ** min(rate_limited, 4)`
(with `rate_limited` already incremented). -/
def recordFailure (s : ProviderStats) (now : ℚ) (errorMsg : String)
    (isRateLimit : Bool) : ProviderStats :=
  let s' : ProviderStats :=
    { s with
      total_requests := s.total_requests + 1
      failed := s.failed + 1
      last_error_at := now
      last_error_msg := errorMsg }
  if isRateLimit then
    let rl := s'.rate_limited + 1
    { s' with
      rate_limited := rl
      cooldown_until := now + 30 * 2 ^ (min rl 4) }
  else s'

/-- `TranslationProvider.check_rate_limit` (base.py lines 58-73), returning the
decision together with the (possibly window-reset) stats. -/
def checkRateLimit (s : ProviderStats) (now : ℚ) (maxRpm : Nat) :
    Bool × ProviderStats :=
  if now < s.cooldown_until then (false, s)
  else
    let s :=
      if 60 < now - s.window_start then
        { s with requests_this_window := 0, window_start := now }
      else s
    if maxRpm ≤ s.requests_this_window then (false, s) else (true, s)

/-- The provider state reached after `k` consecutive rate-limit-classified
failures, the `i`-th failure happening at time `t i`. -/
def statsAfterRateFailures (name : String) (t : Nat → ℚ) : Nat → ProviderStats
  | 0 => freshStats name 0
  | k + 1 => recordFailure (statsAfterRateFailures name t k) (t (k + 1))
      "Rate limited" true

lemma statsAfterRateFailures_rate_limited (name : String) (t : Nat → ℚ) :
    ∀ k, (statsAfterRateFailures name t k).rate_limited = k := by
  intro k
  induction k with
  | zero => rfl
  | succ k ih =>
    simp [statsAfterRateFailures, recordFailure, ih]

/-- C7. After the `k`-th consecutive rate-limit-classified failure (k ≥ 1),
`record_failure` has set `cooldown_until` to `now + 30 · 2^min(k,4)` seconds
— 60, 120, 240, 480 for k = 1..4 and capped at 480 for k ≥ 4 — and has
incremented the `rate_limited` counter by exactly one. -/
theorem cooldown_backoff_C7 (name : String) (t : Nat → ℚ) (k : Nat)
    (hk : 1 ≤ k) :
    (statsAfterRateFailures name t k).rate_limited = k ∧
    (statsAfterRateFailures name t k).rate_limited
      = (statsAfterRateFailures name t (k - 1)).rate_limited + 1 ∧
    (statsAfterRateFailures name t k).cooldown_until
      = t k + 30 * 2 ^ (min k 4) ∧
    (4 ≤ k → (statsAfterRateFailures name t k).cooldown_until = t k + 480) := by
  obtain ⟨j, rfl⟩ : ∃ j, k = j + 1 := ⟨k - 1, (Nat.succ_pred_eq_of_pos hk).symm⟩
  refine ⟨statsAfterRateFailures_rate_limited name t (j + 1), ?_, ?_, ?_⟩
  · simp [statsAfterRateFailures_rate_limited]
  · show (recordFailure _ _ _ _).cooldown_until = _
    simp [recordFailure, statsAfterRateFailures_rate_limited]
  · intro h4
    show (recordFailure _ _ _ _).cooldown_until = _
    have hmin : min (j + 1) 4 = 4 := by omega
    simp [recordFailure, statsAfterRateFailures_rate_limited, hmin]
    norm_num

/-- Witness for C7 at k = 5: the cooldown is capped at 480 s and the counter
reads 5. -/
theorem cooldown_backoff_C7_witness :
    (1 ≤ 5 ∧
      (statsAfterRateFailures "p" (fun _ => 0) 5).rate_limited = 5 ∧
      (statsAfterRateFailures "p" (fun _ => 0) 5).cooldown_until
        = (0 : ℚ) + 30 * 2 ^ (min 5 4)) := by
  refine ⟨by norm_num, ?_, ?_⟩
  · exact (cooldown_backoff_C7 "p" (fun _ => 0) 5 (by norm_num)).1
  · exact (cooldown_backoff_C7 "p" (fun _ => 0) 5 (by norm_num)).2.2.1

/-!
## C10 — counter invariant over arbitrary call sequences
-/

/-- One book-keeping event on a provider: a `record_success` or a
`record_failure` call. -/
inductive ProviderEvent
  | success (now : ℚ)
  | failure (now : ℚ) (msg : String) (isRateLimit : Bool)

/-- Apply one event to the stats, exactly as the two recorders do. -/
def applyEvent (s : ProviderStats) : ProviderEvent → ProviderStats
  | .success now => recordSuccess s now
  | .failure now msg r => recordFailure s now msg r

/-- The stats reached from a fresh provider after a sequence of events. -/
def statsAfterEvents (name : String) (evs : List ProviderEvent) : ProviderStats :=
  evs.foldl applyEvent (freshStats name 0)

lemma counters_invariant_step (s : ProviderStats) (e : ProviderEvent)
    (h1 : s.total_requests = s.successful + s.failed)
    (h2 : s.rate_limited ≤ s.failed) :
    (applyEvent s e).total_requests
        = (applyEvent s e).successful + (applyEvent s e).failed ∧
      (applyEvent s e).rate_limited ≤ (applyEvent s e).failed := by
  cases e with
  | success now => simp [applyEvent, recordSuccess, h1, h2]; omega
  | failure now msg r =>
    cases r <;> simp [applyEvent, recordFailure, h1] <;> omega

/-- C10. Starting from a fresh `ProviderStats`, any sequence of
`record_success` / `record_failure` calls preserves
`total_requests = successful + failed` and `rate_limited ≤ failed`. -/
theorem counters_invariant_C10 (name : String) (evs : List ProviderEvent) :
    (statsAfterEvents name evs).total_requests
        = (statsAfterEvents name evs).successful
          + (statsAfterEvents name evs).failed ∧
      (statsAfterEvents name evs).rate_limited
        ≤ (statsAfterEvents name evs).failed := by
  suffices h : ∀ (s : ProviderStats),
      s.total_requests = s.successful + s.failed → s.rate_limited ≤ s.failed →
      (evs.foldl applyEvent s).total_requests
          = (evs.foldl applyEvent s).successful + (evs.foldl applyEvent s).failed ∧
        (evs.foldl applyEvent s).rate_limited ≤ (evs.foldl applyEvent s).failed by
    exact h (freshStats name 0) rfl (by simp [freshStats])
  induction evs with
  | nil => intro s h1 h2; exact ⟨h1, h2⟩
  | cons e rest ih =>
    intro s h1 h2
    obtain ⟨h1', h2'⟩ := counters_invariant_step s e h1 h2
    exact ih (applyEvent s e) h1' h2'

/-!
## Two-level cache — `backend/engine/cache.py`

L1 is the in-memory `OrderedDict` (head = oldest entry); L2 models the SQLite
`translation_cache` table behind the injected `db_get_fn` / `db_save_fn`
(`get_cached_translation_db` / `save_cached_translation_db` in
`backend/auth.py`), as an association list.
-/

/-- State of `TwoLevelCache`: the L1 ordered map, the L2 durable map and the
hit counters. -/
structure TwoLevelCacheState where
  l1 : List (String × String)
  l2 : List (String × String)
  maxMemory : Nat := 10000
  hitsL1 : Nat := 0
  hitsL2 : Nat := 0
  misses : Nat := 0
  totalLookups : Nat := 0
deriving Repr, DecidableEq

/-- Lookup in an association list (first entry with the key wins, as for a
dict / an SQL primary key). -/
def assocGet (l : List (String × String)) (k : String) : Option String :=
  (l.find? (fun p => p.1 = k)).map (fun p => p.2)

/-- `get_cached_translation_db` (auth.py lines 101-121): return the stored
`translated_text`, or `None`. (The `hit_count` bump is not observable here.) -/
def dbGet (l2 : List (String × String)) (k : String) : Option String :=
  assocGet l2 k

/-- `save_cached_translation_db` (auth.py lines 124-142): an
`INSERT ... ON CONFLICT(source_text) DO UPDATE SET hit_count = ...,
last_used_at = ...`. Note that on conflict the statement does NOT update
`translated_text`, so an existing row keeps its old translation. -/
def dbSave (l2 : List (String × String)) (k v : String) :
    List (String × String) :=
  if (l2.find? (fun p => p.1 = k)).isSome then l2 else l2 ++ [(k, v)]

/-- `OrderedDict.move_to_end(key)`: the entry keeps its value and moves to the
most-recently-used end. -/
def moveToEnd (l : List (String × String)) (k : String) :
    List (String × String) :=
  match l.find? (fun p => p.1 = k) with
  | some p => l.eraseP (fun q => q.1 = k) ++ [p]
  | none => l

/-- `TwoLevelCache._put_l1` (cache.py lines 63-71): when the key is already in
L1 it is only moved to the MRU end — the stored value is NOT replaced;
otherwise the oldest entry is evicted if L1 is full and the pair is appended. -/
def putL1 (c : TwoLevelCacheState) (k v : String) : TwoLevelCacheState :=
  if (c.l1.find? (fun p => p.1 = k)).isSome then
    { c with l1 := moveToEnd c.l1 k }
  else
    let l1 := if c.maxMemory ≤ c.l1.length then c.l1.drop 1 else c.l1
    { c with l1 := l1 ++ [(k, v)] }

/-- The level tag returned by `TwoLevelCache.get`. -/
inductive CacheLevel
  | l1
  | l2
  | miss
deriving Repr, DecidableEq

/-- `TwoLevelCache.get` (cache.py lines 30-50): strip the key, probe L1 (with
move-to-end), fall back to L2 (with promotion into L1 when the stored value is
truthy), update the counters. -/
def cacheGet (c : TwoLevelCacheState) (text : String) :
    Option String × CacheLevel × TwoLevelCacheState :=
  let key := pyStrip text
  let c := { c with totalLookups := c.totalLookups + 1 }
  match c.l1.find? (fun p => p.1 = key) with
  | some p =>
    (some p.2, .l1, { c with l1 := moveToEnd c.l1 key, hitsL1 := c.hitsL1 + 1 })
  | none =>
    match dbGet c.l2 key with
    | some v =>
      if v ≠ "" then
        (some v, .l2, putL1 { c with hitsL2 := c.hitsL2 + 1 } key v)
      else
        (none, .miss, { c with misses := c.misses + 1 })
    | none => (none, .miss, { c with misses := c.misses + 1 })

/-- `TwoLevelCache.put` (cache.py lines 52-61): strip the key, `_put_l1`, and
when `persist` also write through to L2. -/
def cachePut (c : TwoLevelCacheState) (text translated : String)
    (persist : Bool) : TwoLevelCacheState :=
  let key := pyStrip text
  let c' := putL1 c key translated
  if persist then { c' with l2 := dbSave c'.l2 key translated } else c'

/-- C6. Failing input: L1 already holds `("hello", "OLD")`; after
`put("hello", "NEW")` the subsequent `get("hello")` still answers
`("OLD", 'l1')` — `_put_l1` only moves the existing entry to the MRU end and
never overwrites its value (and the SQLite upsert does not update
`translated_text` either), so the claimed `(v, L1)` result is false. -/
theorem cache_store_lookup_stale_C6 :
    (cacheGet
        (cachePut { l1 := [("hello", "OLD")], l2 := [] } "hello" "NEW" true)
        "hello").1 = some "OLD" ∧
      (cacheGet
        (cachePut { l1 := [("hello", "OLD")], l2 := [] } "hello" "NEW" true)
        "hello").2.1 = CacheLevel.l1 ∧
      some "OLD" ≠ some "NEW" := by
  decide

/-!
## Translation engine — `backend/engine/engine.py`

A provider is abstracted by the values the engine observes during one call:
its `get_status()` result, its `check_rate_limit()` result, and its
`translate` / `translate_batch` behaviour as functions. A batch call that
raises is modelled by `batchFn` returning `none` (the engine wraps the call in
`try/except` and skips the provider).
-/

/-- `ProviderStatus` from `backend/engine/base.py`. -/
inductive ProviderStatus
  | available
  | rate_limited
  | error
  | disabled
deriving Repr, DecidableEq

/-- The face a `TranslationProvider` shows to the engine during one
`translate` / `translate_batch` call. -/
structure ProviderModel where
  name : String := ""
  status : ProviderStatus := .available
  rateOk : Bool := true
  translateFn : String → Option String := fun _ => none
  batchFn : List String → Option (List (Option String)) := fun _ => none

instance : Inhabited ProviderModel := ⟨{}⟩

/-- A provider is tried (not skipped) iff it is neither disabled nor in
cooldown and passes the sliding-window rate precheck (engine.py lines 43-61
and 113-128). -/
def eligibleB (p : ProviderModel) : Bool :=
  !(p.status = .disabled) && !(p.status = .rate_limited) && p.rateOk

/-- The acceptance test the engine applies to a single-translate result
(engine.py line 66): truthy, and trimmed lowercase differs from the input's. -/
def succeedsWith (p : ProviderModel) (text : String) : Option String :=
  match p.translateFn text with
  | some r =>
    if r ≠ "" ∧ pyLower (pyStrip r) ≠ pyLower (pyStrip text) then some r
    else none
  | none => none

/-- Outcome of `TranslationEngine.translate`: the returned string, the cache
state afterwards, the `cache.put` calls made (in order), and the indices of
the providers whose `translate` was invoked (in order). -/
structure TranslateOutcome where
  result : String
  cache : TwoLevelCacheState
  stores : List (String × String)
  calls : List Nat

/-- The provider walk of `TranslationEngine.translate` (engine.py lines
42-77): skip disabled / cooling-down / rate-capped providers, call
`translate` on the rest in order, and return (and `put`) the first result
that is truthy and differs trim+lowercase from the input; fall back to the
input unchanged. -/
def engineWalk : List ProviderModel → Nat → String → TwoLevelCacheState →
    TranslateOutcome
  | [], _, text, c => ⟨text, c, [], []⟩
  | p :: rest, idx, text, c =>
    if p.status = .disabled then engineWalk rest (idx + 1) text c
    else if p.status = .rate_limited then engineWalk rest (idx + 1) text c
    else if !p.rateOk then engineWalk rest (idx + 1) text c
    else
      match p.translateFn text with
      | some result =>
        if result ≠ "" ∧ pyLower (pyStrip result) ≠ pyLower (pyStrip text) then
          ⟨result, cachePut c text result true, [(text, result)], [idx]⟩
        else
          let o := engineWalk rest (idx + 1) text c
          ⟨o.result, o.cache, o.stores, idx :: o.calls⟩
      | none =>
        let o := engineWalk rest (idx + 1) text c
        ⟨o.result, o.cache, o.stores, idx :: o.calls⟩

/-- `TranslationEngine.translate` (engine.py lines 28-77): empty-after-strip
input is returned as is; then the cache is probed (a truthy hit is returned);
otherwise the provider chain is walked. -/
def engineTranslate (providers : List ProviderModel) (c : TwoLevelCacheState)
    (text : String) : TranslateOutcome :=
  if pyStrip text = "" then ⟨text, c, [], []⟩
  else
    let g := cacheGet c text
    match g.1 with
    | some v =>
      if v ≠ "" then ⟨v, g.2.2, [], []⟩
      else engineWalk providers 0 text g.2.2
    | none => engineWalk providers 0 text g.2.2

/-!
### `TranslationEngine.translate_batch` (engine.py lines 79-177)
-/

/-- Phase 1 (engine.py lines 90-103): per position, empty-after-strip inputs
answer themselves, cache hits answer the cached value, the rest are collected
as uncached indices. `i` is the absolute index of the first element of the
remaining list. -/
def batchPhase1 (i : Nat) (c : TwoLevelCacheState) :
    List String → List (Option String) × List Nat × TwoLevelCacheState
  | [] => ([], [], c)
  | t :: rest =>
    if pyStrip t = "" then
      let (rs, unc, c') := batchPhase1 (i + 1) c rest
      (some t :: rs, unc, c')
    else
      let g := cacheGet c t
      match g.1 with
      | some v =>
        if v ≠ "" then
          let (rs, unc, c') := batchPhase1 (i + 1) g.2.2 rest
          (some v :: rs, unc, c')
        else
          let (rs, unc, c') := batchPhase1 (i + 1) g.2.2 rest
          (none :: rs, i :: unc, c')
      | none =>
        let (rs, unc, c') := batchPhase1 (i + 1) g.2.2 rest
        (none :: rs, i :: unc, c')

/-- Processing of one provider's batch results (engine.py lines 145-159):
`k` walks the batch positions; accepted translations are recorded at their
original index and stored; the rest stay pending (in order). -/
def applyBatchResults (texts : List String) (uncachedIndices : List Nat)
    (batchResults : List (Option String)) :
    List Nat → Nat → List (Option String) → TwoLevelCacheState →
    List (String × String) →
    List (Option String) × TwoLevelCacheState × List (String × String) × List Nat
  | [], _, results, c, stores => (results, c, stores, [])
  | j :: pend, k, results, c, stores =>
    let originalIdx := uncachedIndices.getD j 0
    let originalText := texts.getD originalIdx ""
    match batchResults.getD k none with
    | some t =>
      if t ≠ "" ∧ pyLower (pyStrip t) ≠ pyLower (pyStrip originalText) then
        applyBatchResults texts uncachedIndices batchResults pend (k + 1)
          (results.set originalIdx (some t))
          (cachePut c originalText t true)
          (stores ++ [(originalText, t)])
      else
        let (rs, c', st, sp) :=
          applyBatchResults texts uncachedIndices batchResults pend (k + 1)
            results c stores
        (rs, c', st, j :: sp)
    | none =>
      let (rs, c', st, sp) :=
        applyBatchResults texts uncachedIndices batchResults pend (k + 1)
          results c stores
      (rs, c', st, j :: sp)

/-- The provider loop of phase 2 (engine.py lines 109-165): stop when nothing
is pending; skip ineligible providers; a batch call that raises is caught and
skipped; otherwise fold the batch results in. -/
def batchProviderLoop (texts : List String) (uncachedIndices : List Nat)
    (uncachedTexts : List String) :
    List ProviderModel → List Nat → List (Option String) →
    TwoLevelCacheState → List (String × String) →
    List (Option String) × TwoLevelCacheState × List (String × String) × List Nat
  | [], pending, results, c, stores => (results, c, stores, pending)
  | p :: rest, pending, results, c, stores =>
    if pending = [] then (results, c, stores, pending)
    else if !eligibleB p then
      batchProviderLoop texts uncachedIndices uncachedTexts rest pending
        results c stores
    else
      let batchTexts := pending.map (fun j => uncachedTexts.getD j "")
      match p.batchFn batchTexts with
      | none =>
        batchProviderLoop texts uncachedIndices uncachedTexts rest pending
          results c stores
      | some batchResults =>
        let (results', c', stores', stillPending) :=
          applyBatchResults texts uncachedIndices batchResults pending 0
            results c stores
        batchProviderLoop texts uncachedIndices uncachedTexts rest
          stillPending results' c' stores'

/-- Phase 3 (engine.py lines 167-175): positions no provider translated fall
back to the original input string. -/
def batchFinalize (texts : List String) (uncachedIndices : List Nat) :
    List Nat → List (Option String) → List (Option String)
  | [], results => results
  | j :: pend, results =>
    let originalIdx := uncachedIndices.getD j 0
    let results :=
      if results.getD originalIdx none = none then
        results.set originalIdx (some (texts.getD originalIdx ""))
      else results
    batchFinalize texts uncachedIndices pend results

/-- Outcome of `TranslationEngine.translate_batch`: the result list (the
Python list may momentarily hold `None`, hence `Option`), the cache state and
the `cache.put` calls made. -/
structure BatchOutcome where
  results : List (Option String)
  cache : TwoLevelCacheState
  stores : List (String × String)

/-- `TranslationEngine.translate_batch` (engine.py lines 79-177). -/
def engineTranslateBatch (providers : List ProviderModel)
    (c : TwoLevelCacheState) (texts : List String) : BatchOutcome :=
  if texts = [] then ⟨[], c, []⟩
  else
    let (results, uncachedIndices, c₁) := batchPhase1 0 c texts
    if uncachedIndices = [] then ⟨results, c₁, []⟩
    else
      let uncachedTexts := uncachedIndices.map (fun i => texts.getD i "")
      let pending := List.range uncachedTexts.length
      let (results', c₂, stores, pendingF) :=
        batchProviderLoop texts uncachedIndices uncachedTexts providers
          pending results c₁ []
      ⟨batchFinalize texts uncachedIndices pendingF results', c₂, stores⟩

/-- Well-formedness of a cache state, as maintained by the system: every
stored value is a non-empty translation whose trimmed lowercase differs from
its (already stripped) key — the engine filters no-op translations before
every `put` (spec §3, "Cache Entry" invariant). -/
def CacheWF (c : TwoLevelCacheState) : Prop :=
  (∀ p ∈ c.l1, p.2 ≠ "" ∧ pyLower (pyStrip p.2) ≠ pyLower p.1) ∧
    (∀ p ∈ c.l2, p.2 ≠ "" ∧ pyLower (pyStrip p.2) ≠ pyLower p.1)

instance (c : TwoLevelCacheState) : Decidable (CacheWF c) := by
  unfold CacheWF; infer_instance

/-!
### C2 — characterization of the fallback walk
-/

/-- What `TranslationEngine.translate`'s provider walk guarantees, for a walk
over `ps` whose first provider has absolute index `idx`: providers are called
at most once each, in order (`Pairwise (· < ·)`); only eligible providers are
called; and either some call succeeded — then the first successful eligible
provider's result is returned and stored — or the input is returned unchanged
after every eligible provider was tried. -/
def WalkSpec (ps : List ProviderModel) (idx : Nat) (text : String)
    (c : TwoLevelCacheState) (o : TranslateOutcome) : Prop :=
  o.calls.Pairwise (· < ·) ∧
    (∀ j ∈ o.calls, idx ≤ j ∧ j < idx + ps.length ∧
      eligibleB (ps.getD (j - idx) default) = true) ∧
    ((∃ v jlast, o.result = v ∧ o.stores = [(text, v)] ∧
        o.cache = cachePut c text v true ∧ o.calls.getLast? = some jlast ∧
        succeedsWith (ps.getD (jlast - idx) default) text = some v ∧
        (∀ j ∈ o.calls, j ≠ jlast →
          succeedsWith (ps.getD (j - idx) default) text = none) ∧
        (∀ j, idx ≤ j → j < idx + ps.length →
          eligibleB (ps.getD (j - idx) default) = true → j ≤ jlast →
          j ∈ o.calls)) ∨
      (o.result = text ∧ o.stores = [] ∧ o.cache = c ∧
        (∀ j ∈ o.calls, succeedsWith (ps.getD (j - idx) default) text = none) ∧
        (∀ j, idx ≤ j → j < idx + ps.length →
          eligibleB (ps.getD (j - idx) default) = true → j ∈ o.calls)))

lemma engineWalk_skip (p : ProviderModel) (rest : List ProviderModel)
    (idx : Nat) (text : String) (c : TwoLevelCacheState)
    (h : eligibleB p = false) :
    engineWalk (p :: rest) idx text c = engineWalk rest (idx + 1) text c := by
  by_cases h1 : p.status = .disabled
  · simp [engineWalk, h1]
  · by_cases h2 : p.status = .rate_limited
    · simp [engineWalk, h1, h2]
    · have h3 : p.rateOk = false := by simpa [eligibleB, h1, h2] using h
      simp [engineWalk, h1, h2, h3]

lemma engineWalk_cons_succ (p : ProviderModel) (rest : List ProviderModel)
    (idx : Nat) (text : String) (c : TwoLevelCacheState) (v : String)
    (h : eligibleB p = true) (hs : succeedsWith p text = some v) :
    engineWalk (p :: rest) idx text c
      = ⟨v, cachePut c text v true, [(text, v)], [idx]⟩ := by
  have h' : ¬p.status = .disabled ∧ ¬p.status = .rate_limited ∧
      p.rateOk = true := by
    simpa [eligibleB, and_assoc] using h
  cases htr : p.translateFn text with
  | none => simp [succeedsWith, htr] at hs
  | some r =>
    by_cases hcond : r ≠ "" ∧ pyLower (pyStrip r) ≠ pyLower (pyStrip text)
    · have hv : r = v := by simpa [succeedsWith, htr, hcond] using hs
      subst hv
      simp [engineWalk, h'.1, h'.2.1, h'.2.2, htr, hcond]
    · simp [succeedsWith, htr, hcond] at hs

lemma engineWalk_cons_fail (p : ProviderModel) (rest : List ProviderModel)
    (idx : Nat) (text : String) (c : TwoLevelCacheState)
    (h : eligibleB p = true) (hs : succeedsWith p text = none) :
    engineWalk (p :: rest) idx text c
      = ⟨(engineWalk rest (idx + 1) text c).result,
          (engineWalk rest (idx + 1) text c).cache,
          (engineWalk rest (idx + 1) text c).stores,
          idx :: (engineWalk rest (idx + 1) text c).calls⟩ := by
  have h' : ¬p.status = .disabled ∧ ¬p.status = .rate_limited ∧
      p.rateOk = true := by
    simpa [eligibleB, and_assoc] using h
  cases htr : p.translateFn text with
  | none => simp [engineWalk, h'.1, h'.2.1, h'.2.2, htr]
  | some r =>
    by_cases hcond : r ≠ "" ∧ pyLower (pyStrip r) ≠ pyLower (pyStrip text)
    · simp [succeedsWith, htr, hcond] at hs
    · simp [engineWalk, h'.1, h'.2.1, h'.2.2, htr, hcond]

lemma getD_shift (p : ProviderModel) (rest : List ProviderModel)
    (idx j : Nat) (h : idx + 1 ≤ j) :
    (p :: rest).getD (j - idx) default = rest.getD (j - (idx + 1)) default := by
  have heq : j - idx = (j - (idx + 1)) + 1 := by omega
  rw [heq, List.getD_cons_succ]

lemma engineWalk_walkSpec (text : String) :
    ∀ (ps : List ProviderModel) (idx : Nat) (c : TwoLevelCacheState),
      WalkSpec ps idx text c (engineWalk ps idx text c) := by
  intro ps
  induction ps with
  | nil =>
    intro idx c
    refine ⟨by simp [engineWalk], by simp [engineWalk], Or.inr ?_⟩
    simp [engineWalk]
    omega
  | cons p rest ih =>
    intro idx c
    by_cases hp : eligibleB p = true
    · cases hsv : succeedsWith p text with
      | some v =>
        rw [engineWalk_cons_succ p rest idx text c v hp hsv]
        refine ⟨by simp, ?_, Or.inl ⟨v, idx, rfl, rfl, rfl, rfl, ?_, ?_, ?_⟩⟩
        · intro j hj
          have hj' : j = idx := by simpa using hj
          subst hj'
          exact ⟨le_refl _, by simp, by simpa [Nat.sub_self] using hp⟩
        · simpa [Nat.sub_self] using hsv
        · intro j hj hne
          have : j = idx := by simpa using hj
          exact absurd this hne
        · intro j h1 _ _ h4
          have : j = idx := by omega
          simp [this]
      | none =>
        rw [engineWalk_cons_fail p rest idx text c hp hsv]
        obtain ⟨hpw, hmem, hdisj⟩ := ih (idx + 1) c
        refine ⟨?_, ?_, ?_⟩
        · exact List.pairwise_cons.mpr
            ⟨fun j hj => by have := (hmem j hj).1; omega, hpw⟩
        · intro j hj
          rcases List.mem_cons.mp hj with rfl | hj'
          · exact ⟨le_refl _, by simp, by simpa [Nat.sub_self] using hp⟩
          · obtain ⟨h1, h2, h3⟩ := hmem j hj'
            refine ⟨by omega, by simp; omega, ?_⟩
            rw [getD_shift p rest idx j h1]
            exact h3
        · rcases hdisj with ⟨v, jlast, hres, hst, hca, hlast, hsucc, hfail,
            hcompl⟩ | ⟨hres, hst, hca, hfail, hcompl⟩
          · left
            refine ⟨v, jlast, hres, hst, hca, ?_, ?_, ?_, ?_⟩
            · cases hcalls : (engineWalk rest (idx + 1) text c).calls with
              | nil => rw [hcalls] at hlast; simp at hlast
              | cons a t =>
                rw [hcalls] at hlast
                simpa [List.getLast?_cons_cons] using hlast
            · have hjl : jlast ∈ (engineWalk rest (idx + 1) text c).calls := by
                obtain ⟨hne, heq⟩ := List.mem_getLast?_eq_getLast
                  (show jlast ∈ _ from hlast)
                rw [heq]; exact List.getLast_mem hne
              rw [getD_shift p rest idx jlast (hmem jlast hjl).1]
              exact hsucc
            · intro j hj hne
              rcases List.mem_cons.mp hj with rfl | hj'
              · simpa [Nat.sub_self] using hsv
              · rw [getD_shift p rest idx j (hmem j hj').1]
                exact hfail j hj' hne
            · intro j h1 h2 h3 h4
              rcases Nat.eq_or_lt_of_le h1 with rfl | hlt
              · exact List.mem_cons_self _ _
              · refine List.mem_cons_of_mem _ (hcompl j hlt ?_ ?_ h4)
                · simp at h2; omega
                · rwa [getD_shift p rest idx j hlt] at h3
          · right
            refine ⟨hres, hst, hca, ?_, ?_⟩
            · intro j hj
              rcases List.mem_cons.mp hj with rfl | hj'
              · simpa [Nat.sub_self] using hsv
              · rw [getD_shift p rest idx j (hmem j hj').1]
                exact hfail j hj'
            · intro j h1 h2 h3
              rcases Nat.eq_or_lt_of_le h1 with rfl | hlt
              · exact List.mem_cons_self _ _
              · refine List.mem_cons_of_mem _ (hcompl j hlt ?_ ?_)
                · simp at h2; omega
                · rwa [getD_shift p rest idx j hlt] at h3
    · have hp' : eligibleB p = false := by simpa using hp
      rw [engineWalk_skip p rest idx text c hp']
      obtain ⟨hpw, hmem, hdisj⟩ := ih (idx + 1) c
      refine ⟨hpw, ?_, ?_⟩
      · intro j hj
        obtain ⟨h1, h2, h3⟩ := hmem j hj
        refine ⟨by omega, by simp; omega, ?_⟩
        rw [getD_shift p rest idx j h1]
        exact h3
      · have hshift : ∀ j, idx ≤ j → j < idx + (p :: rest).length →
            eligibleB ((p :: rest).getD (j - idx) default) = true →
            idx + 1 ≤ j ∧ j < idx + 1 + rest.length ∧
              eligibleB (rest.getD (j - (idx + 1)) default) = true := by
          intro j h1 h2 h3
          rcases Nat.eq_or_lt_of_le h1 with rfl | hlt
          · rw [Nat.sub_self, List.getD_cons_zero] at h3
            rw [h3] at hp'
            exact absurd hp' (by simp)
          · refine ⟨hlt, by simp at h2; omega, ?_⟩
            rwa [getD_shift p rest idx j hlt] at h3
        rcases hdisj with ⟨v, jlast, hres, hst, hca, hlast, hsucc, hfail,
            hcompl⟩ | ⟨hres, hst, hca, hfail, hcompl⟩
        · left
          refine ⟨v, jlast, hres, hst, hca, hlast, ?_, ?_, ?_⟩
          · have hjl : jlast ∈ (engineWalk rest (idx + 1) text c).calls := by
              obtain ⟨hne, heq⟩ := List.mem_getLast?_eq_getLast
                (show jlast ∈ _ from hlast)
              rw [heq]; exact List.getLast_mem hne
            rw [getD_shift p rest idx jlast (hmem jlast hjl).1]
            exact hsucc
          · intro j hj hne
            rw [getD_shift p rest idx j (hmem j hj).1]
            exact hfail j hj hne
          · intro j h1 h2 h3 h4
            obtain ⟨h1', h2', h3'⟩ := hshift j h1 h2 h3
            exact hcompl j h1' h2' h3' h4
        · right
          refine ⟨hres, hst, hca, ?_, ?_⟩
          · intro j hj
            rw [getD_shift p rest idx j (hmem j hj).1]
            exact hfail j hj
          · intro j h1 h2 h3
            obtain ⟨h1', h2', h3'⟩ := hshift j h1 h2 h3
            exact hcompl j h1' h2' h3'

lemma cacheGet_fst_some (c : TwoLevelCacheState) (text v : String)
    (h : (cacheGet c text).1 = some v) :
    (pyStrip text, v) ∈ c.l1 ∨ (pyStrip text, v) ∈ c.l2 := by
  unfold cacheGet at h
  cases hf : c.l1.find? (fun p => p.1 = pyStrip text) with
  | some p =>
    left
    have hmem : p ∈ c.l1 := List.mem_of_find?_eq_some hf
    have hkey : p.1 = pyStrip text := by
      have := List.find?_some hf
      simpa using this
    simp only [hf] at h
    have hv : p.2 = v := by simpa using h
    have : (pyStrip text, v) = p := by
      cases p with
      | mk a b => simp at hkey hv; simp [hkey, hv]
    rw [this]
    exact hmem
  | none =>
    simp only [hf] at h
    cases hdb : dbGet c.l2 (pyStrip text) with
    | some w =>
      right
      simp only [hdb] at h
      by_cases hw : w ≠ ""
      · simp only [if_pos hw] at h
        have hv : w = v := by simpa using h
        unfold dbGet assocGet at hdb
        cases hq : c.l2.find? (fun p => p.1 = pyStrip text) with
        | some q =>
          have hmem : q ∈ c.l2 := List.mem_of_find?_eq_some hq
          have hkey : q.1 = pyStrip text := by
            have := List.find?_some hq
            simpa using this
          rw [hq] at hdb
          have hv2 : q.2 = w := by simpa using hdb
          have : (pyStrip text, v) = q := by
            cases q with
            | mk a b => simp at hkey hv2; simp [hkey, hv2, ← hv]
          rw [this]
          exact hmem
        | none => rw [hq] at hdb; simp at hdb
      · simp only [if_neg hw] at h
        simp at h
    | none =>
      simp only [hdb] at h
      simp at h

lemma cacheGet_hit_props (c : TwoLevelCacheState) (text v : String)
    (hwf : CacheWF c) (h : (cacheGet c text).1 = some v) :
    v ≠ "" ∧ pyLower (pyStrip v) ≠ pyLower (pyStrip text) := by
  rcases cacheGet_fst_some c text v h with hm | hm
  · exact hwf.1 (pyStrip text, v) hm
  · exact hwf.2 (pyStrip text, v) hm

/-- C2. `TranslationEngine.translate`: blank input comes straight back; a
truthy cache hit is returned with no provider touched; on a miss the chain is
walked in order — each provider tried at most once, disabled / cooling-down /
rate-capped providers skipped — returning (and storing) the first result
whose trimmed lowercase differs from the input's, or the input itself when
every eligible provider fails. -/
theorem chain_fallback_C2 (providers : List ProviderModel)
    (c : TwoLevelCacheState) (text : String) (hwf : CacheWF c) :
    (pyStrip text = "" → engineTranslate providers c text = ⟨text, c, [], []⟩) ∧
      (pyStrip text ≠ "" → ∀ v, (cacheGet c text).1 = some v →
        engineTranslate providers c text = ⟨v, (cacheGet c text).2.2, [], []⟩) ∧
      (pyStrip text ≠ "" → (cacheGet c text).1 = none →
        WalkSpec providers 0 text (cacheGet c text).2.2
          (engineTranslate providers c text)) := by
  refine ⟨?_, ?_, ?_⟩
  · intro h
    simp [engineTranslate, h]
  · intro h v hv
    have hne : v ≠ "" := (cacheGet_hit_props c text v hwf hv).1
    simp [engineTranslate, h, hv, hne]
  · intro h hm
    have : engineTranslate providers c text
        = engineWalk providers 0 text (cacheGet c text).2.2 := by
      simp [engineTranslate, h, hm]
    rw [this]
    exact engineWalk_walkSpec text providers 0 (cacheGet c text).2.2

/-- An empty cache with the default capacity. -/
def emptyCache : TwoLevelCacheState := { l1 := [], l2 := [] }

/-- The three stub providers of the spec's fallback scenario: the first fails
every call, the second is in cooldown, the third succeeds. -/
def wFailProvider : ProviderModel :=
  { name := "p1", translateFn := fun _ => none }

def wCooldownProvider : ProviderModel :=
  { name := "p2", status := .rate_limited,
    translateFn := fun _ => some "ignored" }

def wOkProvider : ProviderModel :=
  { name := "p3", translateFn := fun _ => some "Salvar mudancas" }

/-- Witness for C2 on the spec's three-stub-provider scenario. -/
theorem chain_fallback_C2_witness :
    CacheWF emptyCache ∧ pyStrip "Save changes" ≠ "" ∧
      (cacheGet emptyCache "Save changes").1 = none ∧
      WalkSpec [wFailProvider, wCooldownProvider, wOkProvider] 0 "Save changes"
        (cacheGet emptyCache "Save changes").2.2
        (engineTranslate [wFailProvider, wCooldownProvider, wOkProvider]
          emptyCache "Save changes") :=
  ⟨by decide, by decide, by decide,
    (chain_fallback_C2 [wFailProvider, wCooldownProvider, wOkProvider]
      emptyCache "Save changes" (by decide)).2.2 (by decide) (by decide)⟩

/-!
### C1 — batch positional alignment

Helper facts about lists and about how `cacheGet` evolves the cache: during
phase 1 of `translate_batch` the cache is only read, so any value it answers
traces back to an entry of the initial cache state.
-/

lemma getD_mem_of_lt {α : Type} (l : List α) (j : Nat) (d : α)
    (h : j < l.length) : l.getD j d ∈ l := by
  rw [List.getD_eq_getElem l d h]
  exact List.getElem_mem h

lemma pairwise_lt_getD_injective (l : List Nat) (h : l.Pairwise (· < ·))
    (i j : Nat) (hi : i < l.length) (hj : j < l.length) (hne : i ≠ j) :
    l.getD i 0 ≠ l.getD j 0 := by
  rw [List.getD_eq_getElem l 0 hi, List.getD_eq_getElem l 0 hj]
  rcases Nat.lt_or_ge i j with hlt | hge
  · exact Nat.ne_of_lt (List.pairwise_iff_getElem.mp h i j hi hj hlt)
  · have hlt : j < i := Nat.lt_of_le_of_ne hge (Ne.symm hne)
    exact (Nat.ne_of_lt (List.pairwise_iff_getElem.mp h j i hj hi hlt)).symm

lemma mem_iff_exists_getD {α : Type} (l : List α) (a d : α) (h : a ∈ l) :
    ∃ i, i < l.length ∧ l.getD i d = a := by
  obtain ⟨i, hi, heq⟩ := List.mem_iff_getElem.mp h
  exact ⟨i, hi, by rw [List.getD_eq_getElem l d hi]; exact heq⟩

lemma getD_set_self {α : Type} (l : List α) (i : Nat) (x d : α)
    (h : i < l.length) : (l.set i x).getD i d = x := by
  simp [List.getD, List.getElem?_set, h]

lemma getD_set_ne {α : Type} (l : List α) (i j : Nat) (x d : α)
    (h : i ≠ j) : (l.set i x).getD j d = l.getD j d := by
  simp [List.getD, List.getElem?_set, h]

/-- `c'` only holds entries that were already present in `c₀`: every L1 pair
comes from `c₀`'s L1 or L2, and L2 is unchanged. This is invariant under
`cacheGet` (move-to-end, L2→L1 promotion and LRU eviction only rearrange or
copy existing entries). -/
def SubCache (c₀ c' : TwoLevelCacheState) : Prop :=
  (∀ p ∈ c'.l1, p ∈ c₀.l1 ∨ p ∈ c₀.l2) ∧ c'.l2 = c₀.l2

lemma subCache_refl (c : TwoLevelCacheState) : SubCache c c :=
  ⟨fun _ hp => Or.inl hp, rfl⟩

lemma moveToEnd_subset (l : List (String × String)) (k : String) :
    ∀ p ∈ moveToEnd l k, p ∈ l := by
  intro p hp
  unfold moveToEnd at hp
  cases hf : l.find? (fun q => q.1 = k) with
  | some q =>
    rw [hf] at hp
    rcases List.mem_append.mp hp with h1 | h2
    · exact (List.eraseP_sublist l).mem h1
    · have : p = q := by simpa using h2
      rw [this]
      exact List.mem_of_find?_eq_some hf
  | none => rw [hf] at hp; exact hp

lemma putL1_l1_subset (c : TwoLevelCacheState) (k v : String) :
    ∀ q ∈ (putL1 c k v).l1, q ∈ c.l1 ∨ q = (k, v) := by
  intro q hq
  unfold putL1 at hq
  by_cases hf : (c.l1.find? (fun p => p.1 = k)).isSome
  · rw [if_pos hf] at hq
    exact Or.inl (moveToEnd_subset c.l1 k q hq)
  · rw [if_neg hf] at hq
    simp only at hq
    rcases List.mem_append.mp hq with h1 | h2
    · by_cases hm : c.maxMemory ≤ c.l1.length
      · rw [if_pos hm] at h1
        exact Or.inl ((List.drop_sublist 1 c.l1).mem h1)
      · rw [if_neg hm] at h1
        exact Or.inl h1
    · exact Or.inr (by simpa using h2)

lemma putL1_l2 (c : TwoLevelCacheState) (k v : String) :
    (putL1 c k v).l2 = c.l2 := by
  unfold putL1
  split <;> rfl

lemma dbGet_mem (l2 : List (String × String)) (k v : String)
    (h : dbGet l2 k = some v) : (k, v) ∈ l2 := by
  unfold dbGet assocGet at h
  cases hf : l2.find? (fun p => p.1 = k) with
  | some q =>
    have hmem : q ∈ l2 := List.mem_of_find?_eq_some hf
    have hkey : q.1 = k := by
      have := List.find?_some hf
      simpa using this
    rw [hf] at h
    have hv : q.2 = v := by simpa using h
    have : (k, v) = q := by
      cases q with
      | mk a b => simp at hkey hv; simp [hkey, hv]
    rw [this]; exact hmem
  | none => rw [hf] at h; simp at h

lemma cacheGet_subCache (c₀ c : TwoLevelCacheState) (t : String)
    (h : SubCache c₀ c) : SubCache c₀ (cacheGet c t).2.2 := by
  unfold cacheGet
  cases hf : c.l1.find? (fun p => p.1 = pyStrip t) with
  | some p =>
    simp only [hf]
    exact ⟨fun q hq => h.1 q (moveToEnd_subset c.l1 (pyStrip t) q hq), h.2⟩
  | none =>
    simp only [hf]
    cases hdb : dbGet c.l2 (pyStrip t) with
    | some v =>
      by_cases hv : v ≠ ""
      · simp only [hdb, if_pos hv]
        constructor
        · intro q hq
          rcases putL1_l1_subset _ (pyStrip t) v q hq with h1 | h2
          · exact h.1 q h1
          · right
            rw [h2, ← h.2]
            exact dbGet_mem c.l2 (pyStrip t) v hdb
        · rw [putL1_l2]
          exact h.2
      · simp only [hdb, if_neg hv]
        exact ⟨h.1, h.2⟩
    | none =>
      simp only [hdb]
      exact ⟨h.1, h.2⟩

lemma cacheGet_hit_from (c₀ c : TwoLevelCacheState) (t v : String)
    (h : SubCache c₀ c) (hv : (cacheGet c t).1 = some v) :
    (pyStrip t, v) ∈ c₀.l1 ∨ (pyStrip t, v) ∈ c₀.l2 := by
  rcases cacheGet_fst_some c t v hv with h1 | h2
  · exact h.1 _ h1
  · right; rw [← h.2]; exact h2

/-- What C1 grants about one returned element `v` for input `t`: either the
original string came back, or a genuine translation (trimmed lowercase
differs) that was stored by this call or was already in the cache. -/
def GoodElem (c₀ : TwoLevelCacheState) (stores : List (String × String))
    (t v : String) : Prop :=
  v = t ∨ (pyLower (pyStrip v) ≠ pyLower (pyStrip t) ∧
    ((t, v) ∈ stores ∨ (pyStrip t, v) ∈ c₀.l1 ∨ (pyStrip t, v) ∈ c₀.l2))

instance (c₀ : TwoLevelCacheState) (stores : List (String × String))
    (t v : String) : Decidable (GoodElem c₀ stores t v) := by
  unfold GoodElem; infer_instance

lemma goodElem_mono (c₀ : TwoLevelCacheState)
    (stores extra : List (String × String)) (t v : String)
    (h : GoodElem c₀ stores t v) : GoodElem c₀ (stores ++ extra) t v := by
  rcases h with h | ⟨h1, h2 | h3⟩
  · exact Or.inl h
  · exact Or.inr ⟨h1, Or.inl (List.mem_append.mpr (Or.inl h2))⟩
  · exact Or.inr ⟨h1, Or.inr h3⟩

lemma batchPhase1_spec (c₀ : TwoLevelCacheState) (hwf : CacheWF c₀) :
    ∀ (texts : List String) (i₀ : Nat) (c : TwoLevelCacheState),
      SubCache c₀ c →
      (batchPhase1 i₀ c texts).1.length = texts.length ∧
        SubCache c₀ (batchPhase1 i₀ c texts).2.2 ∧
        (batchPhase1 i₀ c texts).2.1.Pairwise (· < ·) ∧
        (∀ j ∈ (batchPhase1 i₀ c texts).2.1,
          i₀ ≤ j ∧ j < i₀ + texts.length ∧
          (batchPhase1 i₀ c texts).1.getD (j - i₀) none = none) ∧
        (∀ k, k < texts.length →
          ((batchPhase1 i₀ c texts).1.getD k none = none ∧
            (i₀ + k) ∈ (batchPhase1 i₀ c texts).2.1) ∨
          (∃ v, (batchPhase1 i₀ c texts).1.getD k none = some v ∧
            GoodElem c₀ [] (texts.getD k "") v)) := by
  intro texts
  induction texts with
  | nil =>
    intro i₀ c hsub
    refine ⟨rfl, hsub, ?_, ?_, ?_⟩ <;> simp [batchPhase1]
  | cons t rest ih =>
    intro i₀ c hsub
    by_cases ht : pyStrip t = ""
    · obtain ⟨hlen, hsub', hpw, hmem, hcov⟩ := ih (i₀ + 1) c hsub
      have heq : batchPhase1 i₀ c (t :: rest)
          = (some t :: (batchPhase1 (i₀ + 1) c rest).1,
             (batchPhase1 (i₀ + 1) c rest).2.1,
             (batchPhase1 (i₀ + 1) c rest).2.2) := by
        cases hb : batchPhase1 (i₀ + 1) c rest with
        | mk rs r2 =>
          cases r2 with
          | mk unc c' => simp [batchPhase1, ht, hb]
      rw [heq]
      refine ⟨by simpa using hlen, hsub', hpw, ?_, ?_⟩
      · intro j hj
        obtain ⟨h1, h2, h3⟩ := hmem j hj
        refine ⟨by omega, by simpa using by omega, ?_⟩
        have : j - i₀ = (j - (i₀ + 1)) + 1 := by omega
        rw [this, List.getD_cons_succ]
        exact h3
      · intro k hk
        cases k with
        | zero =>
          right
          exact ⟨t, by simp, Or.inl rfl⟩
        | succ k' =>
          have hk' : k' < rest.length := by simpa using hk
          rcases hcov k' hk' with ⟨h1, h2⟩ | ⟨v, h1, h2⟩
          · left
            rw [List.getD_cons_succ]
            refine ⟨h1, ?_⟩
            have harith : i₀ + (k' + 1) = (i₀ + 1) + k' := by omega
            rw [harith]
            exact h2
          · right
            rw [List.getD_cons_succ, List.getD_cons_succ]
            exact ⟨v, h1, h2⟩
    · cases hg : (cacheGet c t).1 with
      | some v =>
        by_cases hv : v ≠ ""
        · -- truthy cache hit
          have hsubg := cacheGet_subCache c₀ c t hsub
          obtain ⟨hlen, hsub', hpw, hmem, hcov⟩ := ih (i₀ + 1) _ hsubg
          have heq : batchPhase1 i₀ c (t :: rest)
              = (some v :: (batchPhase1 (i₀ + 1) (cacheGet c t).2.2 rest).1,
                 (batchPhase1 (i₀ + 1) (cacheGet c t).2.2 rest).2.1,
                 (batchPhase1 (i₀ + 1) (cacheGet c t).2.2 rest).2.2) := by
            cases hb : batchPhase1 (i₀ + 1) (cacheGet c t).2.2 rest with
            | mk rs r2 =>
              cases r2 with
              | mk unc c' => simp [batchPhase1, ht, hg, hv, hb]
          rw [heq]
          refine ⟨by simpa using hlen, hsub', hpw, ?_, ?_⟩
          · intro j hj
            obtain ⟨h1, h2, h3⟩ := hmem j hj
            refine ⟨by omega, by simpa using by omega, ?_⟩
            have : j - i₀ = (j - (i₀ + 1)) + 1 := by omega
            rw [this, List.getD_cons_succ]
            exact h3
          · intro k hk
            cases k with
            | zero =>
              right
              refine ⟨v, by simp, Or.inr ⟨?_, Or.inr ?_⟩⟩
              · rcases cacheGet_hit_from c₀ c t v hsub hg with hm | hm
                · have := hwf.1 _ hm
                  simpa using this.2
                · have := hwf.2 _ hm
                  simpa using this.2
              · exact cacheGet_hit_from c₀ c t v hsub hg
            | succ k' =>
              have hk' : k' < rest.length := by simpa using hk
              rcases hcov k' hk' with ⟨h1, h2⟩ | ⟨w, h1, h2⟩
              · left
                rw [List.getD_cons_succ]
                refine ⟨h1, ?_⟩
                have harith : i₀ + (k' + 1) = (i₀ + 1) + k' := by omega
                rw [harith]
                exact h2
              · right
                rw [List.getD_cons_succ, List.getD_cons_succ]
                exact ⟨w, h1, h2⟩
        · -- cache answered an empty string: treated as uncached
          have hsubg := cacheGet_subCache c₀ c t hsub
          obtain ⟨hlen, hsub', hpw, hmem, hcov⟩ := ih (i₀ + 1) _ hsubg
          have heq : batchPhase1 i₀ c (t :: rest)
              = ((none : Option String)
                    :: (batchPhase1 (i₀ + 1) (cacheGet c t).2.2 rest).1,
                 i₀ :: (batchPhase1 (i₀ + 1) (cacheGet c t).2.2 rest).2.1,
                 (batchPhase1 (i₀ + 1) (cacheGet c t).2.2 rest).2.2) := by
            cases hb : batchPhase1 (i₀ + 1) (cacheGet c t).2.2 rest with
            | mk rs r2 =>
              cases r2 with
              | mk unc c' => simp [batchPhase1, ht, hg, hv, hb]
          rw [heq]
          refine ⟨by simpa using hlen, hsub', ?_, ?_, ?_⟩
          · exact List.pairwise_cons.mpr
              ⟨fun j hj => by have := (hmem j hj).1; omega, hpw⟩
          · intro j hj
            rcases List.mem_cons.mp hj with rfl | hj'
            · exact ⟨le_refl _, by simp, by simp⟩
            · obtain ⟨h1, h2, h3⟩ := hmem j hj'
              refine ⟨by omega, by simpa using by omega, ?_⟩
              have : j - i₀ = (j - (i₀ + 1)) + 1 := by omega
              rw [this, List.getD_cons_succ]
              exact h3
          · intro k hk
            cases k with
            | zero => left; simp
            | succ k' =>
              have hk' : k' < rest.length := by simpa using hk
              rcases hcov k' hk' with ⟨h1, h2⟩ | ⟨w, h1, h2⟩
              · left
                rw [List.getD_cons_succ]
                refine ⟨h1, List.mem_cons_of_mem _ ?_⟩
                have harith : i₀ + (k' + 1) = (i₀ + 1) + k' := by omega
                rw [harith]
                exact h2
              · right
                rw [List.getD_cons_succ, List.getD_cons_succ]
                exact ⟨w, h1, h2⟩
      | none =>
        -- cache miss
        have hsubg := cacheGet_subCache c₀ c t hsub
        obtain ⟨hlen, hsub', hpw, hmem, hcov⟩ := ih (i₀ + 1) _ hsubg
        have heq : batchPhase1 i₀ c (t :: rest)
            = ((none : Option String)
                  :: (batchPhase1 (i₀ + 1) (cacheGet c t).2.2 rest).1,
               i₀ :: (batchPhase1 (i₀ + 1) (cacheGet c t).2.2 rest).2.1,
               (batchPhase1 (i₀ + 1) (cacheGet c t).2.2 rest).2.2) := by
          cases hb : batchPhase1 (i₀ + 1) (cacheGet c t).2.2 rest with
          | mk rs r2 =>
            cases r2 with
            | mk unc c' => simp [batchPhase1, ht, hg, hb]
        rw [heq]
        refine ⟨by simpa using hlen, hsub', ?_, ?_, ?_⟩
        · exact List.pairwise_cons.mpr
            ⟨fun j hj => by have := (hmem j hj).1; omega, hpw⟩
        · intro j hj
          rcases List.mem_cons.mp hj with rfl | hj'
          · exact ⟨le_refl _, by simp, by simp⟩
          · obtain ⟨h1, h2, h3⟩ := hmem j hj'
            refine ⟨by omega, by simpa using by omega, ?_⟩
            have : j - i₀ = (j - (i₀ + 1)) + 1 := by omega
            rw [this, List.getD_cons_succ]
            exact h3
        · intro k hk
          cases k with
          | zero => left; simp
          | succ k' =>
            have hk' : k' < rest.length := by simpa using hk
            rcases hcov k' hk' with ⟨h1, h2⟩ | ⟨w, h1, h2⟩
            · left
              rw [List.getD_cons_succ]
              refine ⟨h1, List.mem_cons_of_mem _ ?_⟩
              have harith : i₀ + (k' + 1) = (i₀ + 1) + k' := by omega
              rw [harith]
              exact h2
            · right
              rw [List.getD_cons_succ, List.getD_cons_succ]
              exact ⟨w, h1, h2⟩

lemma applyBatchResults_spec (texts : List String) (c₀ : TwoLevelCacheState)
    (uncIdx : List Nat) (batchResults : List (Option String)) :
    ∀ (pending : List Nat) (k : Nat) (results : List (Option String))
      (c : TwoLevelCacheState) (stores : List (String × String)),
      pending.Nodup →
      (∀ j ∈ pending, results.getD (uncIdx.getD j 0) none = none) →
      (∀ j j', j ∈ pending → j' ∈ pending → j ≠ j' →
        uncIdx.getD j 0 ≠ uncIdx.getD j' 0) →
      (∀ j ∈ pending, uncIdx.getD j 0 < results.length) →
      (applyBatchResults texts uncIdx batchResults pending k results
          c stores).1.length = results.length ∧
        (∃ extra, (applyBatchResults texts uncIdx batchResults pending k results
          c stores).2.2.1 = stores ++ extra) ∧
        List.Sublist (applyBatchResults texts uncIdx batchResults pending k
          results c stores).2.2.2 pending ∧
        (∀ k', (∀ j ∈ pending, uncIdx.getD j 0 ≠ k') →
          (applyBatchResults texts uncIdx batchResults pending k results
            c stores).1.getD k' none = results.getD k' none) ∧
        (∀ j ∈ pending,
          j ∉ (applyBatchResults texts uncIdx batchResults pending k results
            c stores).2.2.2 →
          ∃ v, (applyBatchResults texts uncIdx batchResults pending k results
              c stores).1.getD (uncIdx.getD j 0) none = some v ∧
            GoodElem c₀ (applyBatchResults texts uncIdx batchResults pending k
              results c stores).2.2.1 (texts.getD (uncIdx.getD j 0) "") v) ∧
        (∀ j ∈ (applyBatchResults texts uncIdx batchResults pending k results
            c stores).2.2.2,
          (applyBatchResults texts uncIdx batchResults pending k results
            c stores).1.getD (uncIdx.getD j 0) none = none) := by
  intro pending
  induction pending with
  | nil =>
    intro k results c stores _ hnone _ _
    refine ⟨rfl, ⟨[], by simp [applyBatchResults]⟩, ?_, ?_, ?_, ?_⟩
      <;> simp [applyBatchResults]
  | cons j pend ih =>
    intro k results c stores hnodup hnone hinj hbound
    have hjmem : j ∈ j :: pend := List.mem_cons_self _ _
    have hjnotpend : j ∉ pend := (List.nodup_cons.mp hnodup).1
    have hpendnodup : pend.Nodup := (List.nodup_cons.mp hnodup).2
    cases hbr : batchResults.getD k none with
    | some t =>
      by_cases hcond : t ≠ "" ∧
          pyLower (pyStrip t)
            ≠ pyLower (pyStrip (texts.getD (uncIdx.getD j 0) ""))
      · -- accepted: slot set, translation stored, recursion on the tail
        have heq : applyBatchResults texts uncIdx batchResults (j :: pend) k
            results c stores
            = applyBatchResults texts uncIdx batchResults pend (k + 1)
              (results.set (uncIdx.getD j 0) (some t))
              (cachePut c (texts.getD (uncIdx.getD j 0) "") t true)
              (stores ++ [(texts.getD (uncIdx.getD j 0) "", t)]) := by
          simp only [applyBatchResults]
          rw [hbr]
          dsimp only
          rw [if_pos hcond]
        have hne_of_mem : ∀ j' ∈ pend, uncIdx.getD j' 0 ≠ uncIdx.getD j 0 :=
          fun j' hj' => hinj j' j (List.mem_cons_of_mem _ hj') hjmem
            (fun h => hjnotpend (h ▸ hj'))
        obtain ⟨ihlen, ⟨extra, ihst⟩, ihsub, ihd1, ihd2, ihd3⟩ :=
          ih (k + 1) (results.set (uncIdx.getD j 0) (some t))
            (cachePut c (texts.getD (uncIdx.getD j 0) "") t true)
            (stores ++ [(texts.getD (uncIdx.getD j 0) "", t)])
            hpendnodup
            (fun j' hj' => by
              rw [getD_set_ne _ _ _ _ _ (Ne.symm (hne_of_mem j' hj'))]
              exact hnone j' (List.mem_cons_of_mem _ hj'))
            (fun j1 j2 h1 h2 hne => hinj j1 j2 (List.mem_cons_of_mem _ h1)
              (List.mem_cons_of_mem _ h2) hne)
            (fun j' hj' => by
              rw [List.length_set]
              exact hbound j' (List.mem_cons_of_mem _ hj'))
        rw [heq]
        refine ⟨by rw [ihlen, List.length_set], ?_, ?_, ?_, ?_, ?_⟩
        · exact ⟨(texts.getD (uncIdx.getD j 0) "", t) :: extra, by
            rw [ihst, List.append_assoc]; rfl⟩
        · exact ihsub.cons j
        · intro k' hk'
          rw [ihd1 k' (fun j' hj' => hk' j' (List.mem_cons_of_mem _ hj')),
            getD_set_ne _ _ _ _ _ (hk' j hjmem)]
        · intro j'' hj'' hnot
          rcases List.mem_cons.mp hj'' with rfl | hj''
          · refine ⟨t, ?_, ?_⟩
            · rw [ihd1 _ (fun j' hj' => hne_of_mem j' hj'),
                getD_set_self _ _ _ _ (hbound j'' hjmem)]
            · refine Or.inr ⟨hcond.2, Or.inl ?_⟩
              rw [ihst]
              exact List.mem_append.mpr (Or.inl
                (List.mem_append.mpr (Or.inr (by simp))))
          · exact ihd2 j'' hj'' hnot
        · exact ihd3
      · -- rejected (identical or empty translation): stays pending
        have heq : applyBatchResults texts uncIdx batchResults (j :: pend) k
            results c stores
            = ((applyBatchResults texts uncIdx batchResults pend (k + 1)
                  results c stores).1,
               (applyBatchResults texts uncIdx batchResults pend (k + 1)
                  results c stores).2.1,
               (applyBatchResults texts uncIdx batchResults pend (k + 1)
                  results c stores).2.2.1,
               j :: (applyBatchResults texts uncIdx batchResults pend (k + 1)
                  results c stores).2.2.2) := by
          cases hr : applyBatchResults texts uncIdx batchResults pend (k + 1)
              results c stores with
          | mk rs r2 =>
            cases r2 with
            | mk c' r3 =>
              cases r3 with
              | mk st sp =>
                simp only [applyBatchResults]
                rw [hbr]
                dsimp only
                rw [if_neg hcond, hr]
        have hne_of_mem : ∀ j' ∈ pend, uncIdx.getD j' 0 ≠ uncIdx.getD j 0 :=
          fun j' hj' => hinj j' j (List.mem_cons_of_mem _ hj') hjmem
            (fun h => hjnotpend (h ▸ hj'))
        obtain ⟨ihlen, ⟨extra, ihst⟩, ihsub, ihd1, ihd2, ihd3⟩ :=
          ih (k + 1) results c stores hpendnodup
            (fun j' hj' => hnone j' (List.mem_cons_of_mem _ hj'))
            (fun j1 j2 h1 h2 hne => hinj j1 j2 (List.mem_cons_of_mem _ h1)
              (List.mem_cons_of_mem _ h2) hne)
            (fun j' hj' => hbound j' (List.mem_cons_of_mem _ hj'))
        rw [heq]
        refine ⟨ihlen, ⟨extra, ihst⟩, ihsub.cons₂ j,
          fun k' hk' => ihd1 k' (fun j' hj' =>
            hk' j' (List.mem_cons_of_mem _ hj')), ?_, ?_⟩
        · intro j'' hj'' hnot
          rcases List.mem_cons.mp hj'' with rfl | hj''
          · exact absurd (List.mem_cons_self _ _) hnot
          · exact ihd2 j'' hj'' (fun h => hnot (List.mem_cons_of_mem _ h))
        · intro j'' hj''
          rcases List.mem_cons.mp hj'' with rfl | hj''
          · rw [ihd1 _ (fun j' hj' => hne_of_mem j' hj')]
            exact hnone j'' hjmem
          · exact ihd3 j'' hj''
    | none =>
      -- provider returned a hole at this position: stays pending
      have heq : applyBatchResults texts uncIdx batchResults (j :: pend) k
          results c stores
          = ((applyBatchResults texts uncIdx batchResults pend (k + 1)
                results c stores).1,
             (applyBatchResults texts uncIdx batchResults pend (k + 1)
                results c stores).2.1,
             (applyBatchResults texts uncIdx batchResults pend (k + 1)
                results c stores).2.2.1,
             j :: (applyBatchResults texts uncIdx batchResults pend (k + 1)
                results c stores).2.2.2) := by
        cases hr : applyBatchResults texts uncIdx batchResults pend (k + 1)
            results c stores with
        | mk rs r2 =>
          cases r2 with
          | mk c' r3 =>
            cases r3 with
            | mk st sp =>
                simp only [applyBatchResults]
                rw [hbr]
                dsimp only
                rw [hr]
      have hne_of_mem : ∀ j' ∈ pend, uncIdx.getD j' 0 ≠ uncIdx.getD j 0 :=
        fun j' hj' => hinj j' j (List.mem_cons_of_mem _ hj') hjmem
          (fun h => hjnotpend (h ▸ hj'))
      obtain ⟨ihlen, ⟨extra, ihst⟩, ihsub, ihd1, ihd2, ihd3⟩ :=
        ih (k + 1) results c stores hpendnodup
          (fun j' hj' => hnone j' (List.mem_cons_of_mem _ hj'))
          (fun j1 j2 h1 h2 hne => hinj j1 j2 (List.mem_cons_of_mem _ h1)
            (List.mem_cons_of_mem _ h2) hne)
          (fun j' hj' => hbound j' (List.mem_cons_of_mem _ hj'))
      rw [heq]
      refine ⟨ihlen, ⟨extra, ihst⟩, ihsub.cons₂ j,
        fun k' hk' => ihd1 k' (fun j' hj' =>
          hk' j' (List.mem_cons_of_mem _ hj')), ?_, ?_⟩
      · intro j'' hj'' hnot
        rcases List.mem_cons.mp hj'' with rfl | hj''
        · exact absurd (List.mem_cons_self _ _) hnot
        · exact ihd2 j'' hj'' (fun h => hnot (List.mem_cons_of_mem _ h))
      · intro j'' hj''
        rcases List.mem_cons.mp hj'' with rfl | hj''
        · rw [ihd1 _ (fun j' hj' => hne_of_mem j' hj')]
          exact hnone j'' hjmem
        · exact ihd3 j'' hj''

lemma batchProviderLoop_spec (texts : List String) (c₀ : TwoLevelCacheState)
    (uncIdx : List Nat) (uncTexts : List String) :
    ∀ (ps : List ProviderModel) (pending : List Nat)
      (results : List (Option String)) (c : TwoLevelCacheState)
      (stores : List (String × String)),
      pending.Nodup →
      (∀ j ∈ pending, results.getD (uncIdx.getD j 0) none = none) →
      (∀ j j', j ∈ pending → j' ∈ pending → j ≠ j' →
        uncIdx.getD j 0 ≠ uncIdx.getD j' 0) →
      (∀ j ∈ pending, uncIdx.getD j 0 < results.length) →
      results.length = texts.length →
      (∀ k, k < texts.length →
        (∃ v, results.getD k none = some v ∧
          GoodElem c₀ stores (texts.getD k "") v) ∨
        (results.getD k none = none ∧ ∃ j ∈ pending, uncIdx.getD j 0 = k)) →
      (batchProviderLoop texts uncIdx uncTexts ps pending results
          c stores).1.length = texts.length ∧
        (∀ k, k < texts.length →
          (∃ v, (batchProviderLoop texts uncIdx uncTexts ps pending results
              c stores).1.getD k none = some v ∧
            GoodElem c₀ (batchProviderLoop texts uncIdx uncTexts ps pending
              results c stores).2.2.1 (texts.getD k "") v) ∨
          ((batchProviderLoop texts uncIdx uncTexts ps pending results
              c stores).1.getD k none = none ∧
            ∃ j ∈ (batchProviderLoop texts uncIdx uncTexts ps pending results
              c stores).2.2.2, uncIdx.getD j 0 = k)) := by
  intro ps
  induction ps with
  | nil =>
    intro pending results c stores _ _ _ _ hlen hcover
    exact ⟨hlen, hcover⟩
  | cons p rest ih =>
    intro pending results c stores hnodup hnone hinj hbound hlen hcover
    by_cases hpend : pending = []
    · have heq : batchProviderLoop texts uncIdx uncTexts (p :: rest) pending
          results c stores = (results, c, stores, pending) := by
        simp [batchProviderLoop, hpend]
      rw [heq]
      exact ⟨hlen, hcover⟩
    · by_cases helig : eligibleB p = true
      · cases hbf : p.batchFn (pending.map (fun j => uncTexts.getD j "")) with
        | none =>
          have heq : batchProviderLoop texts uncIdx uncTexts (p :: rest)
              pending results c stores
              = batchProviderLoop texts uncIdx uncTexts rest pending results
                c stores := by
            simp only [batchProviderLoop]
            rw [if_neg hpend, if_neg (by simp [helig])]
            rw [hbf]
          rw [heq]
          exact ih pending results c stores hnodup hnone hinj hbound hlen
            hcover
        | some br =>
          obtain ⟨alen, ⟨extra, ast⟩, asub, ad1, ad2, ad3⟩ :=
            applyBatchResults_spec texts c₀ uncIdx br pending 0 results c
              stores hnodup hnone hinj hbound
          have heq : batchProviderLoop texts uncIdx uncTexts (p :: rest)
              pending results c stores
              = batchProviderLoop texts uncIdx uncTexts rest
                (applyBatchResults texts uncIdx br pending 0 results
                  c stores).2.2.2
                (applyBatchResults texts uncIdx br pending 0 results
                  c stores).1
                (applyBatchResults texts uncIdx br pending 0 results
                  c stores).2.1
                (applyBatchResults texts uncIdx br pending 0 results
                  c stores).2.2.1 := by
            simp only [batchProviderLoop]
            rw [if_neg hpend, if_neg (by simp [helig])]
            rw [hbf]
          rw [heq]
          refine ih _ _ _ _ (asub.nodup hnodup) ad3
            (fun j1 j2 h1 h2 hne => hinj j1 j2 (asub.mem h1) (asub.mem h2)
              hne)
            (fun j hj => by rw [alen]; exact hbound j (asub.mem hj))
            (by rw [alen]; exact hlen) ?_
          intro k hk
          rcases hcover k hk with ⟨v, hv, hgood⟩ | ⟨hn, j, hj, hjk⟩
          · left
            have hne : ∀ j ∈ pending, uncIdx.getD j 0 ≠ k := by
              intro j' hj' hjk'
              have hzero := hnone j' hj'
              rw [hjk'] at hzero
              rw [hzero] at hv
              exact Option.noConfusion hv
            refine ⟨v, by rw [ad1 k hne]; exact hv, ?_⟩
            rw [ast]
            exact goodElem_mono c₀ stores extra _ _ hgood
          · by_cases hstill :
                j ∈ (applyBatchResults texts uncIdx br pending 0 results
                  c stores).2.2.2
            · right
              have hthis := ad3 j hstill
              rw [hjk] at hthis
              exact ⟨hthis, j, hstill, hjk⟩
            · left
              obtain ⟨v, hv, hgood⟩ := ad2 j hj hstill
              rw [hjk] at hv hgood
              exact ⟨v, hv, hgood⟩
      · have heq : batchProviderLoop texts uncIdx uncTexts (p :: rest)
            pending results c stores
            = batchProviderLoop texts uncIdx uncTexts rest pending results
              c stores := by
          have helig' : eligibleB p = false := by simpa using helig
          simp only [batchProviderLoop]
          rw [if_neg hpend, if_pos (by simp [helig'])]
        rw [heq]
        exact ih pending results c stores hnodup hnone hinj hbound hlen hcover

lemma batchFinalize_spec (texts : List String) (c₀ : TwoLevelCacheState)
    (uncIdx : List Nat) (stores : List (String × String)) :
    ∀ (pendingF : List Nat) (results : List (Option String)),
      results.length = texts.length →
      (∀ k, k < texts.length →
        (∃ v, results.getD k none = some v ∧
          GoodElem c₀ stores (texts.getD k "") v) ∨
        (results.getD k none = none ∧
          ∃ j ∈ pendingF, uncIdx.getD j 0 = k)) →
      (batchFinalize texts uncIdx pendingF results).length = texts.length ∧
        (∀ k, k < texts.length → ∃ v,
          (batchFinalize texts uncIdx pendingF results).getD k none = some v ∧
          GoodElem c₀ stores (texts.getD k "") v) := by
  intro pendingF
  induction pendingF with
  | nil =>
    intro results hlen hcover
    refine ⟨hlen, ?_⟩
    intro k hk
    rcases hcover k hk with ⟨v, hv, hgood⟩ | ⟨_, j, hj, _⟩
    · exact ⟨v, hv, hgood⟩
    · exact absurd hj (List.not_mem_nil j)
  | cons j pend ih =>
    intro results hlen hcover
    by_cases hslot : results.getD (uncIdx.getD j 0) none = none
    · have heq : batchFinalize texts uncIdx (j :: pend) results
          = batchFinalize texts uncIdx pend
            (results.set (uncIdx.getD j 0)
              (some (texts.getD (uncIdx.getD j 0) ""))) := by
        simp only [batchFinalize]
        rw [if_pos hslot]
      rw [heq]
      refine ih _ (by rw [List.length_set]; exact hlen) ?_
      intro k hk
      by_cases hkj : uncIdx.getD j 0 = k
      · left
        refine ⟨texts.getD k "", ?_, Or.inl rfl⟩
        rw [← hkj]
        rw [getD_set_self _ _ _ _ (by rw [hlen, hkj]; exact hk)]
      · rw [getD_set_ne _ _ _ _ _ hkj]
        rcases hcover k hk with ⟨v, hv, hgood⟩ | ⟨hn, j', hj', hjk'⟩
        · exact Or.inl ⟨v, hv, hgood⟩
        · right
          refine ⟨hn, j', ?_, hjk'⟩
          rcases List.mem_cons.mp hj' with rfl | hj''
          · exact absurd hjk' hkj
          · exact hj''
    · have heq : batchFinalize texts uncIdx (j :: pend) results
          = batchFinalize texts uncIdx pend results := by
        simp only [batchFinalize]
        rw [if_neg hslot]
      rw [heq]
      refine ih _ hlen ?_
      intro k hk
      rcases hcover k hk with ⟨v, hv, hgood⟩ | ⟨hn, j', hj', hjk'⟩
      · exact Or.inl ⟨v, hv, hgood⟩
      · right
        refine ⟨hn, j', ?_, hjk'⟩
        rcases List.mem_cons.mp hj' with rfl | hj''
        · rw [hjk'] at hslot
          exact absurd hn hslot
        · exact hj''

/-- C1. `TranslationEngine.translate_batch` returns a list of exactly the
input's length, and every position holds a string (never `None`): either the
original input, or a translation whose trimmed lowercase differs from the
input's and that was stored by this call or was already present in the
cache. -/
theorem translate_batch_positional_C1 (providers : List ProviderModel)
    (c : TwoLevelCacheState) (texts : List String) (hwf : CacheWF c) :
    (engineTranslateBatch providers c texts).results.length = texts.length ∧
      ∀ i, i < texts.length → ∃ v,
        (engineTranslateBatch providers c texts).results.getD i none
          = some v ∧
        GoodElem c (engineTranslateBatch providers c texts).stores
          (texts.getD i "") v := by
  by_cases htexts : texts = []
  · subst htexts
    refine ⟨by simp [engineTranslateBatch], ?_⟩
    intro i hi
    simp at hi
  · obtain ⟨hlen, hsub, hpw, hmem, hcov⟩ :=
      batchPhase1_spec c hwf texts 0 c (subCache_refl c)
    by_cases hunc : (batchPhase1 0 c texts).2.1 = []
    · have heq : engineTranslateBatch providers c texts
          = ⟨(batchPhase1 0 c texts).1, (batchPhase1 0 c texts).2.2, []⟩ := by
        simp only [engineTranslateBatch]
        rw [if_neg htexts]
        cases hP : batchPhase1 0 c texts with
        | mk results r2 =>
          cases r2 with
          | mk unc c₁ =>
            rw [hP] at hunc
            simp at hunc
            simp [hunc]
      rw [heq]
      refine ⟨hlen, ?_⟩
      intro i hi
      rcases hcov i hi with ⟨_, habs⟩ | ⟨v, hv, hgood⟩
      · rw [hunc] at habs
        exact absurd habs (List.not_mem_nil _)
      · exact ⟨v, hv, hgood⟩
    · -- there are uncached texts: run the provider loop, then finalize
      have hulen : ((batchPhase1 0 c texts).2.1.map
          (fun i => texts.getD i "")).length
          = (batchPhase1 0 c texts).2.1.length := List.length_map _ _
      have heq : engineTranslateBatch providers c texts
          = ⟨batchFinalize texts (batchPhase1 0 c texts).2.1
              (batchProviderLoop texts (batchPhase1 0 c texts).2.1
                ((batchPhase1 0 c texts).2.1.map (fun i => texts.getD i ""))
                providers
                (List.range ((batchPhase1 0 c texts).2.1.map
                  (fun i => texts.getD i "")).length)
                (batchPhase1 0 c texts).1 (batchPhase1 0 c texts).2.2
                []).2.2.2
              (batchProviderLoop texts (batchPhase1 0 c texts).2.1
                ((batchPhase1 0 c texts).2.1.map (fun i => texts.getD i ""))
                providers
                (List.range ((batchPhase1 0 c texts).2.1.map
                  (fun i => texts.getD i "")).length)
                (batchPhase1 0 c texts).1 (batchPhase1 0 c texts).2.2
                []).1,
             (batchProviderLoop texts (batchPhase1 0 c texts).2.1
                ((batchPhase1 0 c texts).2.1.map (fun i => texts.getD i ""))
                providers
                (List.range ((batchPhase1 0 c texts).2.1.map
                  (fun i => texts.getD i "")).length)
                (batchPhase1 0 c texts).1 (batchPhase1 0 c texts).2.2
                []).2.1,
             (batchProviderLoop texts (batchPhase1 0 c texts).2.1
                ((batchPhase1 0 c texts).2.1.map (fun i => texts.getD i ""))
                providers
                (List.range ((batchPhase1 0 c texts).2.1.map
                  (fun i => texts.getD i "")).length)
                (batchPhase1 0 c texts).1 (batchPhase1 0 c texts).2.2
                []).2.2.1⟩ := by
        simp only [engineTranslateBatch]
        rw [if_neg htexts]
        cases hP : batchPhase1 0 c texts with
        | mk results r2 =>
          cases r2 with
          | mk unc c₁ =>
            rw [hP] at hunc
            simp only at hunc ⊢
            rw [if_neg hunc]
      obtain ⟨llen, lcover⟩ :=
        batchProviderLoop_spec texts c (batchPhase1 0 c texts).2.1
          ((batchPhase1 0 c texts).2.1.map (fun i => texts.getD i ""))
          providers
          (List.range ((batchPhase1 0 c texts).2.1.map
            (fun i => texts.getD i "")).length)
          (batchPhase1 0 c texts).1 (batchPhase1 0 c texts).2.2 []
          (List.nodup_range _)
          (by
            intro j hj
            rw [hulen] at hj
            have hjlt := List.mem_range.mp hj
            have hmm := getD_mem_of_lt (batchPhase1 0 c texts).2.1 j 0 hjlt
            have := (hmem _ hmm).2.2
            simpa using this)
          (by
            intro j1 j2 h1 h2 hne
            rw [hulen] at h1 h2
            exact pairwise_lt_getD_injective _ hpw j1 j2
              (List.mem_range.mp h1) (List.mem_range.mp h2) hne)
          (by
            intro j hj
            rw [hulen] at hj
            have hjlt := List.mem_range.mp hj
            have hmm := getD_mem_of_lt (batchPhase1 0 c texts).2.1 j 0 hjlt
            have := (hmem _ hmm).2.1
            rw [hlen]
            simpa using this)
          hlen
          (by
            intro k hk
            rcases hcov k hk with ⟨hn, hmm⟩ | ⟨v, hv, hgood⟩
            · right
              refine ⟨hn, ?_⟩
              obtain ⟨j, hjlt, hjget⟩ :=
                mem_iff_exists_getD (batchPhase1 0 c texts).2.1 (0 + k) 0 hmm
              refine ⟨j, ?_, by simpa using hjget⟩
              rw [hulen]
              exact List.mem_range.mpr hjlt
            · exact Or.inl ⟨v, hv, hgood⟩)
      obtain ⟨flen, fcover⟩ :=
        batchFinalize_spec texts c (batchPhase1 0 c texts).2.1
          (batchProviderLoop texts (batchPhase1 0 c texts).2.1
            ((batchPhase1 0 c texts).2.1.map (fun i => texts.getD i ""))
            providers
            (List.range ((batchPhase1 0 c texts).2.1.map
              (fun i => texts.getD i "")).length)
            (batchPhase1 0 c texts).1 (batchPhase1 0 c texts).2.2
            []).2.2.1
          (batchProviderLoop texts (batchPhase1 0 c texts).2.1
            ((batchPhase1 0 c texts).2.1.map (fun i => texts.getD i ""))
            providers
            (List.range ((batchPhase1 0 c texts).2.1.map
              (fun i => texts.getD i "")).length)
            (batchPhase1 0 c texts).1 (batchPhase1 0 c texts).2.2
            []).2.2.2
          (batchProviderLoop texts (batchPhase1 0 c texts).2.1
            ((batchPhase1 0 c texts).2.1.map (fun i => texts.getD i ""))
            providers
            (List.range ((batchPhase1 0 c texts).2.1.map
              (fun i => texts.getD i "")).length)
            (batchPhase1 0 c texts).1 (batchPhase1 0 c texts).2.2
            []).1
          llen lcover
      rw [heq]
      exact ⟨flen, fcover⟩

/-- Witness for C1 on a concrete batch: one translatable text, one blank
text, no providers, empty cache. -/
theorem translate_batch_positional_C1_witness :
    CacheWF emptyCache ∧
      ((engineTranslateBatch [] emptyCache ["hi", " "]).results.length
          = (["hi", " "] : List String).length ∧
        ∀ i, i < (["hi", " "] : List String).length → ∃ v,
          (engineTranslateBatch [] emptyCache ["hi", " "]).results.getD i none
            = some v ∧
          GoodElem emptyCache
            (engineTranslateBatch [] emptyCache ["hi", " "]).stores
            ((["hi", " "] : List String).getD i "") v) :=
  ⟨by decide,
    translate_batch_positional_C1 [] emptyCache ["hi", " "] (by decide)⟩

/-!
## Line transformer — `backend/translate.py`

The escape transforms work character-by-character, so they are embedded over
`List Char`. Each function below implements one Python `str.replace(old, new)`
(leftmost, non-overlapping) specialised to its fixed 1- or 2-character
pattern.
-/

/-- `value.replace("\\'", "'")` — first replace of `prepare_for_translation`
for single quotes (translate.py line 277). -/
def unescapeSingleQuote : List Char → List Char
  | '\\' :: '\'' :: rest => '\'' :: unescapeSingleQuote rest
  | c :: rest => c :: unescapeSingleQuote rest
  | [] => []

/-- `.replace("\\\\", "\\")` — second replace of `prepare_for_translation`
for single quotes (translate.py line 277). -/
def unescapeBackslash : List Char → List Char
  | '\\' :: '\\' :: rest => '\\' :: unescapeBackslash rest
  | c :: rest => c :: unescapeBackslash rest
  | [] => []

/-- `value.replace('\\"', '"')` — `prepare_for_translation` for double quotes
(translate.py line 279). -/
def unescapeDoubleQuote : List Char → List Char
  | '\\' :: '"' :: rest => '"' :: unescapeDoubleQuote rest
  | c :: rest => c :: unescapeDoubleQuote rest
  | [] => []

/-- `translated.replace("\\", "\\\\")` — first replace of `re_escape` for
single quotes (translate.py line 285). -/
def escapeBackslash : List Char → List Char
  | '\\' :: rest => '\\' :: '\\' :: escapeBackslash rest
  | c :: rest => c :: escapeBackslash rest
  | [] => []

/-- `translated.replace("'", "\\'")` — second replace of `re_escape` for
single quotes (translate.py line 286). -/
def escapeSingleQuote : List Char → List Char
  | '\'' :: rest => '\\' :: '\'' :: escapeSingleQuote rest
  | c :: rest => c :: escapeSingleQuote rest
  | [] => []

/-- `translated.replace('"', '\\"')` — `re_escape` for double quotes
(translate.py line 288). -/
def escapeDoubleQuote : List Char → List Char
  | '"' :: rest => '\\' :: '"' :: escapeDoubleQuote rest
  | c :: rest => c :: escapeDoubleQuote rest
  | [] => []

/-- `prepare_for_translation(value, quote_char)` (translate.py lines
274-279). -/
def prepare_for_translation (value : List Char) (quoteChar : Char) :
    List Char :=
  if quoteChar = '\'' then unescapeBackslash (unescapeSingleQuote value)
  else unescapeDoubleQuote value

/-- `re_escape(translated, quote_char)` (translate.py lines 282-289). -/
def re_escape (translated : List Char) (quoteChar : Char) : List Char :=
  if quoteChar = '\'' then escapeSingleQuote (escapeBackslash translated)
  else escapeDoubleQuote translated

/-- Membership in the regex body group `((?:[^q\\]|\\.)*)` of the two
translatable-line patterns (translate.py lines 30-35): a sequence of
characters other than the quote and the backslash, or backslash-escape pairs
`\\.` (the dot does not match a newline). -/
def isBody (q : Char) : List Char → Bool
  | [] => true
  | '\\' :: c :: rest => if c = '\n' then false else isBody q rest
  | c :: rest => if c = q || c = '\\' then false else isBody q rest

/-- C3 fails on the code: the raw single-quoted body `\n` (backslash + n)
matches the body pattern, but
`re_escape(prepare_for_translation("\\n", "'"), "'")` returns `\\n` — the
backslash is doubled because `prepare_for_translation` for single quotes only
unescapes `\'` and `\\` while `re_escape` re-escapes every backslash. The
spec declares the round-trip an invariant ("Failure to round-trip is a bug in
the transform"), so this is a transform bug. -/
theorem roundtrip_single_backslash_bug_C3 :
    isBody '\'' ['\\', 'n'] = true ∧
      re_escape (prepare_for_translation ['\\', 'n'] '\'') '\''
        = ['\\', '\\', 'n'] ∧
      (['\\', '\\', 'n'] : List Char) ≠ ['\\', 'n'] := by
  decide

/-- Reduction equations for the escape transforms at symbolic characters
(the pattern matches compile to character-equality tests, so these need the
disequalities as hypotheses). -/
lemma unescapeDoubleQuote_cons_ne (c2 : Char) (r2 : List Char)
    (h : c2 ≠ '"') :
    unescapeDoubleQuote ('\\' :: c2 :: r2)
      = '\\' :: unescapeDoubleQuote (c2 :: r2) := by
  rw [unescapeDoubleQuote.eq_def]
  split
  · next rest heq =>
    simp at heq
    exact absurd heq.1 h
  · next c rest heq =>
    simp at heq
    rw [heq.1, heq.2]
  · next heq => simp at heq

lemma unescapeDoubleQuote_cons_plain (c : Char) (rest : List Char)
    (h : c ≠ '\\') :
    unescapeDoubleQuote (c :: rest) = c :: unescapeDoubleQuote rest := by
  rw [unescapeDoubleQuote.eq_def]
  split
  · next r heq =>
    simp at heq
    exact absurd heq.1 h
  · next c' r heq =>
    simp at heq
    rw [heq.1, heq.2]
  · next heq => simp at heq

lemma escapeDoubleQuote_cons (c : Char) (rest : List Char) (h : c ≠ '"') :
    escapeDoubleQuote (c :: rest) = c :: escapeDoubleQuote rest := by
  rw [escapeDoubleQuote.eq_def]
  split
  · next r heq =>
    simp at heq
    exact absurd heq.1 h
  · next c' r heq =>
    simp at heq
    rw [heq.1, heq.2]
  · next heq => simp at heq

lemma isBody_cons_plain (q c : Char) (rest : List Char) (h : c ≠ '\\') :
    isBody q (c :: rest) = if c = q || c = '\\' then false else isBody q rest := by
  rw [isBody.eq_def]
  split
  · next heq => simp at heq
  · next c2 r heq =>
    simp at heq
    exact absurd heq.1 h
  · next c2 r heq =>
    simp at heq
    rw [heq.1, heq.2]

lemma body_head_ne (q : Char) (hqb : q ≠ '\\') (r : List Char)
    (h : isBody q r = true) :
    r = [] ∨ ∃ c3 r3, r = c3 :: r3 ∧ c3 ≠ q := by
  cases r with
  | nil => exact Or.inl rfl
  | cons c3 r3 =>
    right
    refine ⟨c3, r3, rfl, ?_⟩
    intro hc
    subst hc
    rw [isBody_cons_plain c3 c3 r3 hqb] at h
    simp at h

lemma body_head_ne_dquote_false (r3 : List Char)
    (h : isBody '"' ('"' :: r3) = true) : False := by
  rw [isBody_cons_plain '"' '"' r3 (by decide)] at h
  simp at h

/-- Supporting fact: for double-quoted bodies the round-trip invariant does
hold — `re_escape(prepare_for_translation(raw, '"'), '"') = raw` for every
raw body matching the double-quote body pattern. -/
theorem roundtrip_double_quote_ok (raw : List Char)
    (h : isBody '"' raw = true) :
    re_escape (prepare_for_translation raw '"') '"' = raw := by
  have main : ∀ n (raw : List Char), raw.length ≤ n → isBody '"' raw = true →
      escapeDoubleQuote (unescapeDoubleQuote raw) = raw := by
    intro n
    induction n with
    | zero =>
      intro raw hlen _
      have : raw = [] := List.eq_nil_of_length_eq_zero (Nat.le_zero.mp hlen)
      rw [this]
      rfl
    | succ n ihn =>
      intro raw hlen hbody
      cases raw with
      | nil => rfl
      | cons c rest =>
        by_cases hb : c = '\\'
        · subst hb
          cases rest with
          | nil => simp [isBody] at hbody
          | cons c2 r2 =>
            have hpair : isBody '"' ('\\' :: c2 :: r2)
                = if c2 = '\n' then false else isBody '"' r2 := rfl
            rw [hpair] at hbody
            have hr2 : isBody '"' r2 = true := by
              by_cases hn : c2 = '\n'
              · rw [if_pos hn] at hbody; exact absurd hbody (by simp)
              · rwa [if_neg hn] at hbody
            by_cases hq : c2 = '"'
            · subst hq
              have h1 : unescapeDoubleQuote ('\\' :: '"' :: r2)
                  = '"' :: unescapeDoubleQuote r2 := rfl
              have h2 : escapeDoubleQuote ('"' :: unescapeDoubleQuote r2)
                  = '\\' :: '"' :: escapeDoubleQuote (unescapeDoubleQuote r2)
                  := rfl
              rw [h1, h2, ihn r2 (by simp at hlen; omega) hr2]
            · rw [unescapeDoubleQuote_cons_ne c2 r2 hq]
              by_cases hb2 : c2 = '\\'
              · subst hb2
                rcases body_head_ne '"' (by decide) r2 hr2 with rfl | ⟨c3, r3, rfl, hc3⟩
                · rfl
                · rw [unescapeDoubleQuote_cons_ne c3 r3 hc3]
                  rw [escapeDoubleQuote_cons '\\' _ (by decide),
                    escapeDoubleQuote_cons '\\' _ (by decide)]
                  rw [ihn (c3 :: r3) (by simp at hlen ⊢; omega) hr2]
              · rw [unescapeDoubleQuote_cons_plain c2 r2 hb2]
                rw [escapeDoubleQuote_cons '\\' _ (by decide),
                  escapeDoubleQuote_cons c2 _ hq]
                rw [ihn r2 (by simp at hlen; omega) hr2]
        · have hplain : isBody '"' (c :: rest)
              = if c = '"' || c = '\\' then false else isBody '"' rest :=
            isBody_cons_plain '"' c rest hb
          rw [hplain] at hbody
          have hcq : ¬(c = '"' || c = '\\') = true := by
            intro habs
            rw [if_pos habs] at hbody
            exact absurd hbody (by simp)
          simp at hcq
          rw [if_neg (by simp [hcq.1, hcq.2])] at hbody
          rw [unescapeDoubleQuote_cons_plain c rest hb]
          rw [escapeDoubleQuote_cons c _ hcq.1]
          rw [ihn rest (by simp at hlen; omega) hbody]
  have hq : ('"' : Char) ≠ '\'' := by decide
  unfold re_escape prepare_for_translation
  rw [if_neg hq, if_neg hq]
  exact main raw.length raw (le_refl _) h

/-!
## Provider clients — `backend/engine/providers/*.py`

Network I/O is abstracted by oracles: for `google_free` a per-text oracle
giving the joined translation text of the HTTP response (or `none` for a
raised/ failed request); for `deepl_free` a per-call oracle giving the
response's `translations[i].text` list (or `none` for a raised request).

`MyMemoryProvider` (mymemory.py lines 11-71) and `TranslateShellProvider`
(translate_shell.py lines 10-59) define only `translate` / `is_available`:
neither class nor their base class `TranslationProvider` defines
`translate_batch`, so `provider.translate_batch(...)` raises
`AttributeError` — which `TranslationEngine.translate_batch` catches
(engine.py lines 137-143) and treats as a failed provider.
-/

/-- The four concrete provider clients built by `backend/engine/__init__.py`. -/
inductive ProviderImpl
  | google_free
  | deepl_free (apiKey : String)
  | mymemory (email : Option String)
  | translate_shell
deriving Repr, DecidableEq

/-- Result of calling a Python method: a value, or a raised exception. -/
inductive PyCallResult (α : Type)
  | ok (val : α)
  | raised (exc : String)
deriving Repr, DecidableEq

/-- `GoogleFreeProvider.translate` (google_free.py lines 34-70): blank text
comes straight back; a raised request yields `None`; an empty or
trim+lowercase-identical translation yields `None`; otherwise the stripped
translation. -/
def googleTranslate (net : String → Option String) (text : String) :
    Option String :=
  if pyStrip text = "" then some text
  else
    match net text with
    | none => none
    | some translated =>
      if translated = "" ∨ pyLower (pyStrip translated)
          = pyLower (pyStrip text) then none
      else some (pyStrip translated)

/-- `GoogleFreeProvider.translate_batch` (google_free.py lines 72-108): blank
positions answer themselves without a request; the rest get one `translate`
each (issued concurrently; positions are preserved, and the 15-second batch
timeout only leaves extra `None` holes, which the `net` oracle already
models). -/
def googleTranslateBatch (net : String → Option String)
    (texts : List String) : List (Option String) :=
  texts.map (fun t => if pyStrip t = "" then some t else googleTranslate net t)

/-- `DeepLFreeProvider.translate_batch` (deepl_free.py lines 77-127): without
an API key, all-`None`; a raised request yields all-`None`; otherwise element
`i` is the stripped `translations[i].text` if present, non-empty and
lowercase-different from the stripped input, else `None`. -/
def deeplTranslateBatch (apiKey : String) (resp : Option (List String))
    (texts : List String) : List (Option String) :=
  if texts = [] then []
  else if apiKey = "" then texts.map (fun _ => none)
  else
    match resp with
    | none => texts.map (fun _ => none)
    | some translations =>
      (texts.enum).map (fun p =>
        match translations.get? p.1 with
        | some raw =>
          let translated := pyStrip raw
          if translated ≠ "" ∧ pyLower translated
              ≠ pyLower (pyStrip p.2) then some translated
          else none
        | none => none)

/-- Calling `provider.translate_batch(texts)` on each concrete client.
`mymemory` and `translate_shell` have no such attribute, so Python raises
`AttributeError`. -/
def implTranslateBatch (p : ProviderImpl) (gnet : String → Option String)
    (dresp : Option (List String)) (texts : List String) :
    PyCallResult (List (Option String)) :=
  match p with
  | .google_free => .ok (googleTranslateBatch gnet texts)
  | .deepl_free apiKey => .ok (deeplTranslateBatch apiKey dresp texts)
  | .mymemory _ => .raised "AttributeError"
  | .translate_shell => .raised "AttributeError"

/-- C8 fails on the code: the public-fallback HTTP provider (MyMemory) has no
`translate_batch` method at all, so calling it raises `AttributeError` to the
caller instead of returning a positional list. -/
theorem provider_batch_contract_C8_counterexample :
    implTranslateBatch (.mymemory none) (fun _ => none) none ["Hello world"]
      = PyCallResult.raised "AttributeError" := by
  rfl

/-- C8 as amended: `google_free` and `deepl_free` support the batch contract
— a same-length, position-aligned list with per-element `None` for failures,
never an exception — while `mymemory` and `translate_shell` do not implement
`translate_batch` and raise `AttributeError`, which the engine catches and
treats as a provider failure. -/
theorem provider_batch_contract_C8 (gnet : String → Option String)
    (dresp : Option (List String)) (texts : List String) (apiKey : String)
    (email : Option String) :
    (∃ rs, implTranslateBatch .google_free gnet dresp texts = .ok rs ∧
      rs.length = texts.length) ∧
      (∃ rs, implTranslateBatch (.deepl_free apiKey) gnet dresp texts
          = .ok rs ∧ rs.length = texts.length) ∧
      implTranslateBatch (.mymemory email) gnet dresp texts
        = .raised "AttributeError" ∧
      implTranslateBatch .translate_shell gnet dresp texts
        = .raised "AttributeError" := by
  refine ⟨⟨googleTranslateBatch gnet texts, rfl, ?_⟩,
    ⟨deeplTranslateBatch apiKey dresp texts, rfl, ?_⟩, rfl, rfl⟩
  · exact List.length_map _ _
  · unfold deeplTranslateBatch
    by_cases h0 : texts = []
    · simp [h0]
    · rw [if_neg h0]
      by_cases hk : apiKey = ""
      · simp [hk]
      · rw [if_neg hk]
        cases dresp with
        | none => simp
        | some translations =>
          simp [List.enum_length]

/-!
## Secondary artifact meta file — `backend/translator.py`, `_create_voipnow_tar`
-/

/-- The `language/meta` content written by `_create_voipnow_tar`
(translator.py line 190). It is a fixed constant: no version detection is
performed anywhere in the repository. -/
def voipnowMetaContent : String :=
  "ISO: pt_br\nLanguage: Portuguese\nCharset: UTF-8\nVersion: 5.7.0\n"

/-- Split a character list at every occurrence of `sep` (like
`str.split(sep)`). -/
def splitOnChar (sep : Char) : List Char → List (List Char)
  | [] => [[]]
  | c :: rest =>
    let r := splitOnChar sep rest
    if c = sep then [] :: r
    else (c :: r.headD []) :: r.tail

/-- Value of a `Field: value` line of a meta file. -/
def metaFieldValue (meta field : String) : Option String :=
  ((splitOnChar '\n' meta.data).filterMap (fun l =>
    if (field.data ++ [':', ' ']).isPrefixOf l
    then some (⟨l.drop (field.data.length + 2)⟩ : String)
    else none)).head?

/-- A decimal-digit run, for the spec's version patterns. -/
def takeDigits (cs : List Char) : List Char × List Char :=
  (cs.takeWhile Char.isDigit, cs.dropWhile Char.isDigit)

/-- Parse `X.Y[.Z]` (digit runs separated by dots) at the head of `cs`. -/
def parseVersionNumber (cs : List Char) : Option (List Char) :=
  let (x, r1) := takeDigits cs
  if x = [] then none
  else
    match r1 with
    | '.' :: r2 =>
      let (y, r3) := takeDigits r2
      if y = [] then none
      else
        match r3 with
        | '.' :: r4 =>
          let (z, _) := takeDigits r4
          if z = [] then some (x ++ '.' :: y)
          else some (x ++ '.' :: y ++ '.' :: z)
        | _ => some (x ++ '.' :: y)
    | _ => none

/-- Modelled from the spec: "Version detection scans the first 8 KiB of each
source file for the first match of `$version = "X.Y[.Z]"`, `@version
X.Y[.Z]`, or `Version: X.Y[.Z]`; default `1.0.0`." No such routine exists in
the repository (`_create_voipnow_tar` hardcodes the meta content); this
definition follows the spec's words so it can be compared with the code's
constant. -/
def specDetectVersion (files : List String) : String :=
  let tryAt : List Char → Option (List Char) := fun cs =>
    if ("$version = \"".data).isPrefixOf cs then
      match parseVersionNumber (cs.drop 12) with
      | some v => if ((cs.drop 12).drop v.length).head? = some '"'
          then some v else none
      | none => none
    else if ("@version ".data).isPrefixOf cs then
      parseVersionNumber (cs.drop 9)
    else if ("Version: ".data).isPrefixOf cs then
      parseVersionNumber (cs.drop 9)
    else none
  let scan : List Char → Option (List Char) := fun cs =>
    (List.range cs.length).firstM (fun i => tryAt (cs.drop i))
  match files.firstM (fun f => scan (f.data.take 8192)) with
  | some v => ⟨v⟩
  | none => "1.0.0"

/-- C9 fails on the code: for a source tree with no version pattern the claim
predicts `Version: 1.0.0`, but `_create_voipnow_tar` writes the fixed
`Version: 5.7.0` (it never scans the sources). -/
theorem voipnow_meta_version_C9_counterexample :
    specDetectVersion ["<?php\n$x = 1;\n"] = "1.0.0" ∧
      metaFieldValue voipnowMetaContent "Version" = some "5.7.0" ∧
      ("5.7.0" : String) ≠ "1.0.0" := by
  refine ⟨by decide, ?_, by decide⟩
  decide

/-- C9 as amended: the meta file carries exactly the four fields
`ISO: pt_br`, `Language: Portuguese`, `Charset: UTF-8` and the fixed
`Version: 5.7.0`; no version detection is performed. -/
theorem voipnow_meta_fields_C9 :
    metaFieldValue voipnowMetaContent "ISO" = some "pt_br" ∧
      metaFieldValue voipnowMetaContent "Language" = some "Portuguese" ∧
      metaFieldValue voipnowMetaContent "Charset" = some "UTF-8" ∧
      metaFieldValue voipnowMetaContent "Version" = some "5.7.0" ∧
      ((splitOnChar '\n' voipnowMetaContent.data).map
          (fun l => (⟨l⟩ : String)))
        = ["ISO: pt_br", "Language: Portuguese", "Charset: UTF-8",
           "Version: 5.7.0", ""] := by
  refine ⟨?_, ?_, ?_, ?_, ?_⟩ <;> decide

/-!
## Translatable-line classifier — the regexes of `backend/translate.py`

`SINGLE_QUOTE_RE  = ^(\s*\$msg_arr\[.*?\]\s*=\s*')((?:[^'\\]|\\.)*)(';\s*;?\s*)$`
`DOUBLE_QUOTE_RE  = ^(\s*\$msg_arr\[.*?\]\s*=\s*")((?:[^"\\]|\\.)*)(";?\s*;?\s*)$`

The functions below implement exactly these anchored patterns, including the
backtracking Python's engine performs: the lazy `.*?` tries each `]` from the
left, and the greedy body group tries the longest token decomposition first.
`\s` is modelled by `isPySpace` and `.` matches anything but `'\n'`.
-/

/-- `\s*;?\s*$`: optional whitespace, at most one extra semicolon, optional
whitespace, end of line. -/
def tailSemiSpaces (cs : List Char) : Bool :=
  match cs.dropWhile isPySpace with
  | [] => true
  | ';' :: r2 => (r2.dropWhile isPySpace).isEmpty
  | _ => false

/-- The suffix group starting at the closing quote: `';\s*;?\s*$` for single
quotes (the semicolon is mandatory), `";?\s*;?\s*$` for double quotes (the
first semicolon is optional). -/
def checkSuffix (q : Char) (cs : List Char) : Bool :=
  match cs with
  | c :: rest =>
    if c = q then
      if q = '\'' then
        match rest with
        | ';' :: r2 => tailSemiSpaces r2
        | _ => false
      else
        match rest with
        | ';' :: r2 => tailSemiSpaces r2
        | _ => tailSemiSpaces rest
    else false
  | [] => false

/-- All decompositions `cs = body ++ rest` where `body` is a sequence of body
tokens (`[^q\\]` or `\\.`), ordered from the empty body to the longest. -/
def bodyTokenSplits (q : Char) : List Char → List (List Char × List Char)
  | [] => [([], [])]
  | c :: rest =>
    ([], c :: rest) ::
      (if c = '\\' then
        match rest with
        | c2 :: r2 =>
          if c2 = '\n' then []
          else (bodyTokenSplits q r2).map
            (fun p => ('\\' :: c2 :: p.1, p.2))
        | [] => []
      else if c = q then []
      else (bodyTokenSplits q rest).map (fun p => (c :: p.1, p.2)))

/-- The greedy body group followed by the anchored suffix group: the longest
body whose remainder matches the suffix wins. -/
def findBodySuffix (q : Char) (cs : List Char) :
    Option (List Char × List Char) :=
  ((bodyTokenSplits q cs).reverse).find? (fun p => checkSuffix q p.2)

/-- After the key's `]`: `\s*=\s*` then the opening quote, then body and
suffix. Returns the matched prefix-tail (from after `]` through the opening
quote), the body, and the suffix. -/
def matchAssign (q : Char) (cs : List Char) :
    Option (List Char × List Char × List Char) :=
  let ws2 := cs.takeWhile isPySpace
  match cs.dropWhile isPySpace with
  | '=' :: r3 =>
    let ws3 := r3.takeWhile isPySpace
    match r3.dropWhile isPySpace with
    | c :: r5 =>
      if c = q then
        match findBodySuffix q r5 with
        | some (body, suffixCs) =>
          some (ws2 ++ '=' :: ws3 ++ [q], body, suffixCs)
        | none => none
      else none
    | [] => none
  | _ => none

/-- The lazy `.*?\]` loop: at each position first try to close the key with
`]` and match the rest of the pattern; on failure consume one character
(anything but a newline, since `.` does not match `'\n'`) and move right.
`acc` holds the consumed key characters in reverse. -/
def matchKeyLoop (q : Char) : List Char → List Char →
    Option (List Char × List Char × List Char)
  | _, [] => none
  | acc, c :: rest =>
    let tryClose : Option (List Char × List Char × List Char) :=
      if c = ']' then
        match matchAssign q rest with
        | some (assign, body, suffixCs) =>
          some (acc.reverse ++ ']' :: assign, body, suffixCs)
        | none => none
      else none
    match tryClose with
    | some r => some r
    | none => if c = '\n' then none else matchKeyLoop q (c :: acc) rest

/-- Match one of the two translatable-line regexes against a whole line,
returning the three groups `(prefix, raw_literal, suffix)`. -/
def matchMsgArr (q : Char) (line : List Char) :
    Option (List Char × List Char × List Char) :=
  let ws1 := line.takeWhile isPySpace
  let r1 := line.dropWhile isPySpace
  if ("$msg_arr[".data).isPrefixOf r1 then
    match matchKeyLoop q [] (r1.drop 9) with
    | some (keyPart, body, suffixCs) =>
      some (ws1 ++ "$msg_arr[".data ++ keyPart, body, suffixCs)
    | none => none
  else none

/-- The classification step of `_translate_file` (translator.py lines
294-298): try `SINGLE_QUOTE_RE` first, then `DOUBLE_QUOTE_RE`. -/
def classifyLine (stripped : List Char) :
    Option (List Char × List Char × List Char × Char) :=
  match matchMsgArr '\'' stripped with
  | some (p, b, s) => some (p, b, s, '\'')
  | none =>
    match matchMsgArr '"' stripped with
    | some (p, b, s) => some (p, b, s, '"')
    | none => none

/-!
## Placeholder protection — `protect_placeholders` / `restore_placeholders`
(translate.py lines 252-271), pattern `\{[a-zA-Z_][a-zA-Z0-9_]*\}`
-/

def isIdentFirst (c : Char) : Bool :=
  ('a' ≤ c && c ≤ 'z') || ('A' ≤ c && c ≤ 'Z') || c = '_'

def isIdentRest (c : Char) : Bool :=
  isIdentFirst c || c.isDigit

/-- Match `\{[a-zA-Z_][a-zA-Z0-9_]*\}` at the head of `cs`, returning the
matched text and the remainder. -/
def matchPlaceholder : List Char → Option (List Char × List Char)
  | '{' :: c :: rest =>
    if isIdentFirst c then
      match rest.dropWhile isIdentRest with
      | '}' :: r3 =>
        some ('{' :: c :: (rest.takeWhile isIdentRest ++ ['}']), r3)
      | _ => none
    else none
  | _ => none

lemma matchPlaceholder_shrink (cs ph r : List Char)
    (h : matchPlaceholder cs = some (ph, r)) : r.length < cs.length := by
  unfold matchPlaceholder at h
  split at h
  · next c rest =>
    split at h
    · split at h
      · next r3 heq =>
        simp at h
        have h1 : (rest.dropWhile isIdentRest).length ≤ rest.length :=
          (List.dropWhile_sublist (l := rest) (p := isIdentRest)).length_le
        rw [heq] at h1
        simp at h1
        rw [← h.2]
        simp
        omega
      · exact absurd h (by simp)
    · exact absurd h (by simp)
  · exact absurd h (by simp)

/-- `protect_placeholders`'s scan: replace each placeholder occurrence, in
order, with `__PH<n>__`, collecting the token → original mapping. The `fuel`
argument (initialised to the text length) only bounds the recursion; every
step consumes at least one character, so it never runs out. -/
def protectGo (pat_fuel : Nat) (n : Nat) (cs : List Char) :
    List Char × List (String × String) :=
  match pat_fuel, cs with
  | _, [] => ([], [])
  | 0, rest => (rest, [])
  | fuel + 1, c :: rest =>
    match matchPlaceholder (c :: rest) with
    | some (ph, r) =>
      let token := "__PH" ++ toString n ++ "__"
      let (out, m) := protectGo fuel (n + 1) r
      (token.data ++ out, (token, (⟨ph⟩ : String)) :: m)
    | none =>
      let (out, m) := protectGo fuel n rest
      (c :: out, m)

/-- `protect_placeholders(text)` (translate.py lines 252-264). -/
def protect_placeholders (text : List Char) :
    List Char × List (String × String) :=
  protectGo text.length 0 text

/-- Python `str.replace(pat, rep)`: leftmost, non-overlapping. Callers always
pass a non-empty pattern; `fuel` (initialised to the text length) only bounds
the recursion. -/
def replaceAllGo (pat rep : List Char) (fuel : Nat) (l : List Char) :
    List Char :=
  match fuel, l with
  | _, [] => []
  | 0, rest => rest
  | fuel + 1, c :: rest =>
    if pat ≠ [] ∧ pat.isPrefixOf (c :: rest) then
      rep ++ replaceAllGo pat rep fuel ((c :: rest).drop pat.length)
    else c :: replaceAllGo pat rep fuel rest

def replaceAll (pat rep l : List Char) : List Char :=
  replaceAllGo pat rep l.length l

/-- `restore_placeholders(text, mapping)` (translate.py lines 267-271):
sequentially `str.replace` each token back to its original placeholder. -/
def restore_placeholders (text : List Char)
    (mapping : List (String × String)) : List Char :=
  mapping.foldl (fun t p => replaceAll p.1.data p.2.data t) text

/-!
## File worker — `backend/translator.py`, `_translate_file`

File system and WebSocket effects are made explicit: the source file is the
list of its lines (each with its trailing newline), the pre-existing output
file is `existing` (`none` when the path does not exist), the job's cancel
flag is sampled at the start of chunk `b` as `cancel b`, and the final write
is returned as `(mode, lines)` instead of performed.
-/

/-- `BATCH_SIZE` (translator.py line 25). -/
def BATCH_SIZE : Nat := 100

/-- `MAX_PARALLEL_FILES` (translator.py line 26). -/
def MAX_PARALLEL_FILES : Nat := 4

/-- One collected entry of pass 1:
`(idx_in_output, text_prepared, ph_map, prefix, suffix, quote_char)`
(translator.py line 304). -/
structure WorkerEntry where
  idx : Nat
  text : List Char
  phMap : List (String × String)
  pre : List Char
  suf : List Char
  qc : Char

/-- `line.rstrip('\n')` (translator.py line 292). -/
def rstripNewlines (s : String) : String :=
  ⟨(s.data.reverse.dropWhile (fun c => c = '\n')).reverse⟩

/-- Pass 1 (translator.py lines 286-307): classify each line; a match is
prepared, protected and recorded with its output slot, and the original line
is kept as the slot's fallback; a non-match passes through verbatim. `i` is
the output index of the first line of the remaining list. -/
def collectPass (i : Nat) : List String → List WorkerEntry × List String
  | [] => ([], [])
  | line :: rest =>
    match classifyLine (rstripNewlines line).data with
    | some (pre, raw, suf, qc) =>
      let text := prepare_for_translation raw qc
      let pm := protect_placeholders text
      let (es, outs) := collectPass (i + 1) rest
      ({ idx := i, text := pm.1, phMap := pm.2, pre := pre, suf := suf,
          qc := qc } :: es, line :: outs)
    | none =>
      let (es, outs) := collectPass (i + 1) rest
      (es, line :: outs)

/-- The inner loop of pass 2 (translator.py lines 323-331): zip the chunk's
entries with the returned translations, restore placeholders, re-apply the
quote escapes, and place `prefix + restored + suffix + '\n'` into the
reserved output slot, counting each processed entry. -/
def applyTranslations :
    List WorkerEntry → List (Option String) → List String →
    List String × Nat
  | e :: es, t :: ts, outLines =>
    let tr := restore_placeholders (t.getD "").data e.phMap
    let tr2 := re_escape tr e.qc
    let line : String := ⟨e.pre ++ tr2 ++ e.suf ++ ['\n']⟩
    let r := applyTranslations es ts (outLines.set e.idx line)
    (r.1, r.2 + 1)
  | _, _, outLines => (outLines, 0)

/-- `range(0, len(entries), BATCH_SIZE)` chunking. `fuel` (initialised to the
list length) only bounds the recursion; the callers' `n` is `BATCH_SIZE > 0`,
so every step consumes at least one element. -/
def chunksOfGo (n : Nat) : Nat → List WorkerEntry → List (List WorkerEntry)
  | _, [] => []
  | 0, l => [l]
  | fuel + 1, a :: l => ((a :: l).take n) :: chunksOfGo n fuel ((a :: l).drop n)

def chunksOf (n : Nat) (l : List WorkerEntry) : List (List WorkerEntry) :=
  chunksOfGo n l.length l

/-- The mutable state pass 2 threads along: the output slots, the engine's
cache, the `cache.put` trace, the engine batch calls made, and the
translated-string count. -/
structure WorkerState where
  outLines : List String
  cache : TwoLevelCacheState
  stores : List (String × String)
  batchCalls : List (List String)
  count : Nat

/-- Pass 2 (translator.py lines 309-338): for each chunk, first check the
cancel flag (break when set), then call `engine.translate_batch` on the
chunk's prepared texts and fold the translations into the output slots.
(The progress emission and `time.sleep(delay)` have no observable effect
here.) -/
def batchLoop (providers : List ProviderModel) (cancel : Nat → Bool) :
    List (List WorkerEntry) → Nat → WorkerState → WorkerState
  | [], _, st => st
  | chunk :: restChunks, b, st =>
    if cancel b then st
    else
      let batchTexts := chunk.map (fun e => (⟨e.text⟩ : String))
      let bo := engineTranslateBatch providers st.cache batchTexts
      let r := applyTranslations chunk bo.results st.outLines
      batchLoop providers cancel restChunks (b + 1)
        { outLines := r.1, cache := bo.cache,
          stores := st.stores ++ bo.stores,
          batchCalls := st.batchCalls ++ [batchTexts],
          count := st.count + r.2 }

/-- The mode the output file is opened with (translator.py line 283). -/
inductive WMode
  | write
  | append
deriving Repr, DecidableEq

/-- Observable outcome of `_translate_file`: the write performed in pass 3
(`none` when the worker returned early without writing), the return value
`count`, the engine batch calls made, and the final cache / store trace. -/
structure WorkerResult where
  written : Option (WMode × List String)
  count : Nat
  batchCalls : List (List String)
  cache : TwoLevelCacheState
  stores : List (String × String)

/-- `start_line` of `_translate_file` (translator.py lines 269-281): the line
count of the pre-existing output, 0 when there is none. -/
def startLineOf : Option (List String) → Nat
  | some ls => ls.length
  | none => 0

/-- `_translate_file(src_path, dst_path, delay, job)` (translator.py lines
250-357). Resume: when the output file exists with at least as many lines as
the source, return 0 with no translation call and no write; otherwise start
from `start_line = len(existing)` in append mode (write mode when starting
from line 0). Then pass 1 collects, pass 2 translates chunk by chunk
(observing the cancel flag between chunks), and pass 3 writes all slots. -/
def translateFile (providers : List ProviderModel) (c : TwoLevelCacheState)
    (srcLines : List String) (existing : Option (List String))
    (cancel : Nat → Bool) : WorkerResult :=
  let totalLines := srcLines.length
  let startLine := startLineOf existing
  if existing.isSome ∧ totalLines ≤ startLine then
    { written := none, count := 0, batchCalls := [], cache := c,
      stores := [] }
  else
    let mode := if 0 < startLine then WMode.append else WMode.write
    let cp := collectPass 0 (srcLines.drop startLine)
    let st := batchLoop providers cancel (chunksOf BATCH_SIZE cp.1) 0
      { outLines := cp.2, cache := c, stores := [], batchCalls := [],
        count := 0 }
    { written := some (mode, st.outLines), count := st.count,
      batchCalls := st.batchCalls, cache := st.cache, stores := st.stores }

/-!
### C4 — resume behaviour
-/

lemma collectPass_snd (ls : List String) : ∀ i, (collectPass i ls).2 = ls := by
  induction ls with
  | nil => intro i; rfl
  | cons line rest ih =>
    intro i
    unfold collectPass
    cases classifyLine (rstripNewlines line).data with
    | some g =>
      obtain ⟨pre, raw, suf, qc⟩ := g
      simp [ih (i + 1)]
    | none => simp [ih (i + 1)]

lemma applyTranslations_fst_length :
    ∀ (es : List WorkerEntry) (ts : List (Option String))
      (outs : List String),
      (applyTranslations es ts outs).1.length = outs.length := by
  intro es
  induction es with
  | nil => intro ts outs; cases ts <;> rfl
  | cons e rest ih =>
    intro ts outs
    cases ts with
    | nil => rfl
    | cons t ts' =>
      unfold applyTranslations
      rw [ih ts' _]
      simp

lemma batchLoop_outLines_length (providers : List ProviderModel)
    (cancel : Nat → Bool) :
    ∀ (chunks : List (List WorkerEntry)) (b : Nat) (st : WorkerState),
      (batchLoop providers cancel chunks b st).outLines.length
        = st.outLines.length := by
  intro chunks
  induction chunks with
  | nil => intro b st; rfl
  | cons chunk rest ih =>
    intro b st
    unfold batchLoop
    by_cases hc : cancel b
    · rw [if_pos hc]
    · rw [if_neg hc]
      rw [ih]
      exact applyTranslations_fst_length _ _ _

/-- C4 fails on the code: with a 3-line source and a 1-line pre-existing
output, the worker opens the output in append mode and writes only the two
remaining lines — it resumes from the interruption point instead of
discarding the partial output and re-translating the whole file. -/
theorem resume_append_C4_counterexample :
    (translateFile [] emptyCache ["a\n", "b\n", "c\n"] (some ["x\n"])
        (fun _ => false)).written
      = some (WMode.append, ["b\n", "c\n"]) ∧
      WMode.append ≠ WMode.write ∧
      (["b\n", "c\n"] : List String).length
        ≠ (["a\n", "b\n", "c\n"] : List String).length := by
  refine ⟨by decide, by decide, by decide⟩

/-- C4 as amended: when the existing output has at least as many lines as the
input, the worker returns 0 with no translation call and no write; when it
has fewer, the worker keeps the existing lines and appends translations of
exactly the remaining `len(src) - len(existing)` lines from the interruption
point (write mode only when resuming from line 0). -/
theorem resume_behavior_C4 (providers : List ProviderModel)
    (c : TwoLevelCacheState) (src ls : List String) (cancel : Nat → Bool) :
    (src.length ≤ ls.length →
      translateFile providers c src (some ls) cancel
        = { written := none, count := 0, batchCalls := [], cache := c,
            stores := [] }) ∧
      (ls.length < src.length →
        ∃ outs, (translateFile providers c src (some ls) cancel).written
            = some ((if 0 < ls.length then WMode.append else WMode.write),
              outs) ∧
          outs.length = src.length - ls.length) := by
  constructor
  · intro hle
    unfold translateFile
    rw [if_pos ⟨rfl, hle⟩]
  · intro hlt
    have hcond : ¬((some ls).isSome = true ∧
        src.length ≤ startLineOf (some ls)) := by
      intro h
      exact absurd h.2 (by simp [startLineOf]; omega)
    unfold translateFile
    rw [if_neg hcond]
    refine ⟨_, rfl, ?_⟩
    rw [batchLoop_outLines_length, collectPass_snd]
    simp [startLineOf]

/-- Witness for C4 at a concrete resume point (1 existing line, 3 source
lines) and a concrete skip (3 existing lines). -/
theorem resume_behavior_C4_witness :
    ((["a\n", "b\n", "c\n"] : List String).length
        ≤ (["x\n", "y\n", "z\n"] : List String).length ∧
      translateFile [] emptyCache ["a\n", "b\n", "c\n"]
          (some ["x\n", "y\n", "z\n"]) (fun _ => false)
        = { written := none, count := 0, batchCalls := [],
            cache := emptyCache, stores := [] }) ∧
      ((["x\n"] : List String).length
          < (["a\n", "b\n", "c\n"] : List String).length ∧
        ∃ outs, (translateFile [] emptyCache ["a\n", "b\n", "c\n"]
              (some ["x\n"]) (fun _ => false)).written
            = some ((if 0 < (["x\n"] : List String).length then WMode.append
                else WMode.write), outs) ∧
          outs.length = (["a\n", "b\n", "c\n"] : List String).length
            - (["x\n"] : List String).length) :=
  ⟨⟨by decide,
      (resume_behavior_C4 [] emptyCache ["a\n", "b\n", "c\n"]
        ["x\n", "y\n", "z\n"] (fun _ => false)).1 (by decide)⟩,
    ⟨by decide,
      (resume_behavior_C4 [] emptyCache ["a\n", "b\n", "c\n"] ["x\n"]
        (fun _ => false)).2 (by decide)⟩⟩

/-!
### C5 — cancellation behaviour
-/

lemma collectPass_entries (ls : List String) : ∀ i,
    (∀ e ∈ (collectPass i ls).1, i ≤ e.idx ∧ e.idx < i + ls.length) ∧
      (collectPass i ls).1.Pairwise (fun e1 e2 => e1.idx < e2.idx) := by
  induction ls with
  | nil =>
    intro i
    constructor
    · intro e he
      simp [collectPass] at he
    · simp [collectPass]
  | cons line rest ih =>
    intro i
    obtain ⟨ihb, ihp⟩ := ih (i + 1)
    unfold collectPass
    cases classifyLine (rstripNewlines line).data with
    | some g =>
      obtain ⟨pre, raw, suf, qc⟩ := g
      simp only
      constructor
      · intro e he
        rcases List.mem_cons.mp he with rfl | he'
        · exact ⟨le_refl _, by simp⟩
        · obtain ⟨h1, h2⟩ := ihb e he'
          exact ⟨by omega, by simp at h2 ⊢; omega⟩
      · exact List.pairwise_cons.mpr
          ⟨fun e' he' => by have := (ihb e' he').1; simpa using by omega, ihp⟩
    | none =>
      simp only
      constructor
      · intro e he
        obtain ⟨h1, h2⟩ := ihb e he
        exact ⟨by omega, by simp at h2 ⊢; omega⟩
      · exact ihp

lemma applyTranslations_untouched :
    ∀ (es : List WorkerEntry) (ts : List (Option String))
      (outs : List String) (k : Nat),
      (∀ e ∈ es, e.idx ≠ k) →
      (applyTranslations es ts outs).1.getD k "" = outs.getD k "" := by
  intro es
  induction es with
  | nil => intro ts outs k _; cases ts <;> rfl
  | cons e rest ih =>
    intro ts outs k hne
    cases ts with
    | nil => rfl
    | cons t ts' =>
      unfold applyTranslations
      simp only
      rw [ih ts' _ k (fun e' he' => hne e' (List.mem_cons_of_mem _ he'))]
      exact getD_set_ne _ _ _ _ _ (hne e (List.mem_cons_self _ _))

lemma batchLoop_cancel_spec (providers : List ProviderModel)
    (cancel : Nat → Bool) (b₀ : Nat)
    (hcancel : ∀ b, cancel b = decide (b₀ ≤ b)) :
    ∀ (chunks : List (List WorkerEntry)) (b : Nat) (st : WorkerState),
      (batchLoop providers cancel chunks b st).batchCalls.length
          = st.batchCalls.length + min (b₀ - b) chunks.length ∧
        ∀ k, (∀ chunk ∈ chunks.take (b₀ - b), ∀ e ∈ chunk, e.idx ≠ k) →
          (batchLoop providers cancel chunks b st).outLines.getD k ""
            = st.outLines.getD k "" := by
  intro chunks
  induction chunks with
  | nil => intro b st; exact ⟨by simp [batchLoop], by intro k _; rfl⟩
  | cons chunk rest ih =>
    intro b st
    by_cases hb : b₀ ≤ b
    · have hc : cancel b = true := by rw [hcancel]; simpa using hb
      have heq : batchLoop providers cancel (chunk :: rest) b st = st := by
        unfold batchLoop; rw [if_pos hc]
      rw [heq]
      have hz : b₀ - b = 0 := by omega
      exact ⟨by simp [hz], by intro k _; rfl⟩
    · have hc : cancel b = false := by rw [hcancel]; simpa using hb
      have heq : batchLoop providers cancel (chunk :: rest) b st
          = batchLoop providers cancel rest (b + 1)
            { outLines := (applyTranslations chunk
                (engineTranslateBatch providers st.cache
                  (chunk.map (fun e => (⟨e.text⟩ : String)))).results
                st.outLines).1,
              cache := (engineTranslateBatch providers st.cache
                (chunk.map (fun e => (⟨e.text⟩ : String)))).cache,
              stores := st.stores ++ (engineTranslateBatch providers st.cache
                (chunk.map (fun e => (⟨e.text⟩ : String)))).stores,
              batchCalls := st.batchCalls
                ++ [chunk.map (fun e => (⟨e.text⟩ : String))],
              count := st.count + (applyTranslations chunk
                (engineTranslateBatch providers st.cache
                  (chunk.map (fun e => (⟨e.text⟩ : String)))).results
                st.outLines).2 } := by
        conv_lhs => simp only [batchLoop]
        rw [if_neg (by simp [hc])]
      rw [heq]
      obtain ⟨ihlen, ihout⟩ := ih (b + 1) _
      constructor
      · rw [ihlen]
        simp only [List.length_append, List.length_cons]
        have : b₀ - b = (b₀ - (b + 1)) + 1 := by omega
        simp [List.length_singleton]
        omega
      · intro k hk
        have htake : (chunk :: rest).take (b₀ - b)
            = chunk :: rest.take (b₀ - (b + 1)) := by
          have : b₀ - b = (b₀ - (b + 1)) + 1 := by omega
          rw [this, List.take_succ_cons]
        rw [htake] at hk
        rw [ihout k (fun ch hch e he =>
          hk ch (List.mem_cons_of_mem _ hch) e he)]
        simp only
        exact applyTranslations_untouched chunk _ _ k
          (fun e he => hk chunk (List.mem_cons_self _ _) e he)

lemma mem_take_mono {α : Type} (l : List α) (i j : Nat) (x : α)
    (hij : i ≤ j) (h : x ∈ l.take i) : x ∈ l.take j := by
  have hj : j = i + (j - i) := by omega
  rw [hj, List.take_add]
  exact List.mem_append_left _ h

lemma chunksOfGo_take_mem (n : Nat) (hn : 0 < n) :
    ∀ (fuel : Nat) (l : List WorkerEntry), l.length ≤ fuel →
      ∀ (m : Nat) (chunk : List WorkerEntry) (x : WorkerEntry),
        chunk ∈ (chunksOfGo n fuel l).take m → x ∈ chunk →
        x ∈ l.take (m * n) := by
  intro fuel
  induction fuel with
  | zero =>
    intro l hl m chunk x hc _
    have : l = [] := List.eq_nil_of_length_eq_zero (Nat.le_zero.mp hl)
    subst this
    simp [chunksOfGo] at hc
  | succ fuel ihf =>
    intro l hl m chunk x hc hx
    cases l with
    | nil => simp [chunksOfGo] at hc
    | cons a l' =>
      cases m with
      | zero => simp at hc
      | succ m' =>
        have hgo : chunksOfGo n (fuel + 1) (a :: l')
            = ((a :: l').take n) :: chunksOfGo n fuel ((a :: l').drop n) :=
          rfl
        rw [hgo, List.take_succ_cons] at hc
        rcases List.mem_cons.mp hc with rfl | hc'
        · exact mem_take_mono _ n ((m' + 1) * n) x
            (by rw [Nat.succ_mul]; exact Nat.le_add_left n (m' * n)) hx
        · have hdl : ((a :: l').drop n).length ≤ fuel := by
            simp only [List.length_drop]
            simp at hl ⊢
            omega
          have hmem := ihf ((a :: l').drop n) hdl m' chunk x hc' hx
          have hsplit : (a :: l').take ((m' + 1) * n)
              = (a :: l').take n ++ ((a :: l').drop n).take (m' * n) := by
            have harith : (m' + 1) * n = n + m' * n := by
              rw [Nat.succ_mul]; omega
            rw [harith, List.take_add]
          rw [hsplit]
          exact List.mem_append_right _ hmem

/-- C5 as amended: when the cancel flag first reads true at chunk `b₀`, the
worker performs exactly `min b₀ (number of chunks)` engine batch calls — it
returns before starting chunk `b₀` — but still writes the full output slice:
entries of the unprocessed chunks keep their original source lines. -/
theorem cancel_partial_file_C5 (providers : List ProviderModel)
    (c : TwoLevelCacheState) (src : List String)
    (existing : Option (List String)) (cancel : Nat → Bool) (b₀ : Nat)
    (hcancel : ∀ b, cancel b = decide (b₀ ≤ b)) :
    ∀ mode outs,
      (translateFile providers c src existing cancel).written
        = some (mode, outs) →
      outs.length = (src.drop (startLineOf existing)).length ∧
        (translateFile providers c src existing cancel).batchCalls.length
          = min b₀ (chunksOf BATCH_SIZE
              (collectPass 0 (src.drop (startLineOf existing))).1).length ∧
        ∀ e ∈ (collectPass 0 (src.drop (startLineOf existing))).1.drop
            (b₀ * BATCH_SIZE),
          outs.getD e.idx "" = (src.drop (startLineOf existing)).getD e.idx ""
    := by
  intro mode outs hw
  by_cases hcond : (existing.isSome = true ∧
      src.length ≤ startLineOf existing)
  · rw [show translateFile providers c src existing cancel
        = { written := none, count := 0, batchCalls := [], cache := c,
            stores := [] } from by unfold translateFile; rw [if_pos hcond]]
      at hw
    exact absurd hw (by simp)
  · have heq : translateFile providers c src existing cancel
        = { written := some ((if 0 < startLineOf existing then WMode.append
              else WMode.write),
            (batchLoop providers cancel (chunksOf BATCH_SIZE
              (collectPass 0 (src.drop (startLineOf existing))).1) 0
              { outLines := (collectPass 0
                  (src.drop (startLineOf existing))).2,
                cache := c, stores := [], batchCalls := [],
                count := 0 }).outLines),
            count := (batchLoop providers cancel (chunksOf BATCH_SIZE
              (collectPass 0 (src.drop (startLineOf existing))).1) 0
              { outLines := (collectPass 0
                  (src.drop (startLineOf existing))).2,
                cache := c, stores := [], batchCalls := [],
                count := 0 }).count,
            batchCalls := (batchLoop providers cancel (chunksOf BATCH_SIZE
              (collectPass 0 (src.drop (startLineOf existing))).1) 0
              { outLines := (collectPass 0
                  (src.drop (startLineOf existing))).2,
                cache := c, stores := [], batchCalls := [],
                count := 0 }).batchCalls,
            cache := (batchLoop providers cancel (chunksOf BATCH_SIZE
              (collectPass 0 (src.drop (startLineOf existing))).1) 0
              { outLines := (collectPass 0
                  (src.drop (startLineOf existing))).2,
                cache := c, stores := [], batchCalls := [],
                count := 0 }).cache,
            stores := (batchLoop providers cancel (chunksOf BATCH_SIZE
              (collectPass 0 (src.drop (startLineOf existing))).1) 0
              { outLines := (collectPass 0
                  (src.drop (startLineOf existing))).2,
                cache := c, stores := [], batchCalls := [],
                count := 0 }).stores } := by
      unfold translateFile
      rw [if_neg hcond]
    rw [heq] at hw
    simp only [Option.some.injEq, Prod.mk.injEq] at hw
    obtain ⟨hmode, houts⟩ := hw
    obtain ⟨hlooplen, hloopout⟩ :=
      batchLoop_cancel_spec providers cancel b₀ hcancel
        (chunksOf BATCH_SIZE
          (collectPass 0 (src.drop (startLineOf existing))).1) 0
        { outLines := (collectPass 0 (src.drop (startLineOf existing))).2,
          cache := c, stores := [], batchCalls := [], count := 0 }
    refine ⟨?_, ?_, ?_⟩
    · rw [← houts, batchLoop_outLines_length]
      simp only
      rw [collectPass_snd]
    · rw [heq]
      simp only
      rw [hlooplen]
      simp
    · intro e he
      obtain ⟨hbnd, hpw⟩ :=
        collectPass_entries (src.drop (startLineOf existing)) 0
      have hne : ∀ chunk ∈ (chunksOf BATCH_SIZE
          (collectPass 0 (src.drop (startLineOf existing))).1).take (b₀ - 0),
          ∀ e' ∈ chunk, e'.idx ≠ e.idx := by
        intro chunk hch e' he'
        have hmem : e' ∈ (collectPass 0
            (src.drop (startLineOf existing))).1.take (b₀ * BATCH_SIZE) := by
          have := chunksOfGo_take_mem BATCH_SIZE (by decide)
            (collectPass 0 (src.drop (startLineOf existing))).1.length
            (collectPass 0 (src.drop (startLineOf existing))).1
            (le_refl _) (b₀ - 0) chunk e' hch he'
          simpa using this
        have hcross : e'.idx < e.idx := by
          have hsplit := List.take_append_drop (b₀ * BATCH_SIZE)
            (collectPass 0 (src.drop (startLineOf existing))).1
          rw [← hsplit] at hpw
          exact (List.pairwise_append.mp hpw).2.2 e' hmem e he
        omega
      rw [← houts, hloopout e.idx hne]
      simp only
      rw [collectPass_snd]

/-- A stub provider whose batch call translates every text to `"TX"`. -/
def c5Stub : ProviderModel :=
  { name := "stub",
    batchFn := fun ts => some (ts.map (fun _ => some "TX")) }

/-- A source file of 101 translatable lines — two chunks at
`BATCH_SIZE = 100`. -/
def c5Src : List String :=
  (List.range 101).map (fun i =>
    "$msg_arr[k" ++ toString i ++ "]='text number " ++ toString i
      ++ "';\n")

/-- C5 fails on the code: with 101 translatable lines and the cancel flag
first observed at chunk 1, the worker breaks before chunk 1 but still writes
the output file, whose first line holds the translated literal of batch 0 —
a partially translated file is emitted. -/
theorem cancel_partial_file_C5_counterexample :
    ((translateFile [c5Stub] emptyCache c5Src none
        (fun b => decide (1 ≤ b))).written.map
          (fun p => p.2.getD 0 "")) = some "$msg_arr[k0]='TX';\n" ∧
      ((translateFile [c5Stub] emptyCache c5Src none
        (fun b => decide (1 ≤ b))).written.map Prod.fst)
        = some WMode.write ∧
      c5Src.getD 0 "" = "$msg_arr[k0]='text number 0';\n" ∧
      ("$msg_arr[k0]='TX';\n" : String)
        ≠ "$msg_arr[k0]='text number 0';\n" := by
  refine ⟨by decide, by decide, by decide, by decide⟩

/-- Witness for C5 on a one-line file with cancel first observed at chunk
1 (so the single chunk is processed and the file is written). -/
theorem cancel_partial_file_C5_witness :
    (∀ b, (fun b => decide (1 ≤ b) : Nat → Bool) b = decide (1 ≤ b)) ∧
      ((translateFile [] emptyCache ["opaque line\n"] none
          (fun b => decide (1 ≤ b))).written
        = some (WMode.write, ["opaque line\n"]) ∧
      ((["opaque line\n"] : List String).drop
          (startLineOf none)).length = 1 ∧
      (translateFile [] emptyCache ["opaque line\n"] none
          (fun b => decide (1 ≤ b))).batchCalls.length
        = min 1 (chunksOf BATCH_SIZE (collectPass 0
            ((["opaque line\n"] : List String).drop
              (startLineOf none))).1).length) :=
  ⟨fun _ => rfl, by decide, by decide,
    ((cancel_partial_file_C5 [] emptyCache ["opaque line\n"] none
        (fun b => decide (1 ≤ b)) 1 (fun _ => rfl)) WMode.write
        ["opaque line\n"] (by decide)).2.1⟩

end TransTool
